import Mathlib

/-!
Verification of the hierarchical layout engine of the dev-scope repository
(`src/components/flow/CodeNode.tsx`, class `HierarchicalLayout`).

The engine is embedded shallowly:

* `LNode` / `LEdge` model the input node/edge records (only the fields the
  layout reads: `id`, `data.file`, `data.metadata.is_entry`, `source`,
  `target`).
* `assignLevels` models `HierarchicalLayout.assignLevels`: a multi-source
  breadth-first traversal from the entry nodes.  Node state that the
  TypeScript code mutates in place (`node.level`, `node.importance`, the
  `visited` set and the FIFO queue) is carried explicitly in `BState`; the
  maps are keyed by node id, matching the id-based `visited` set and
  id-based lookups of the source.
* `groupOf` models the directory-derivation of
  `HierarchicalLayout.groupNodes` (JavaScript `String.split('/')` /
  `Array.join('/')` are modelled by `splitOnChar` / `intercalateChar`).
* `placeLevels` / `layout` model `HierarchicalLayout.calculatePositions`
  and `HierarchicalLayout.layout`.

The traversal is written with explicit fuel; `bfsGo_queue_eq_nil` below
proves the chosen fuel always suffices, so the fuelled function computes
the same fixpoint the source's `while (queue.length > 0)` loop does.
-/

namespace DevScope

/-- An input node: the fields of the `LayoutNode`s that
`HierarchicalLayout` actually reads (`node.id`, `node.data.file`,
`node.data.metadata.is_entry`). -/
structure LNode where
  id : String
  file : String
  is_entry : Bool
deriving Repr, DecidableEq

/-- An input edge (`edge.source`, `edge.target`). -/
structure LEdge where
  source : String
  target : String
deriving Repr, DecidableEq

/-- Point update of an id-keyed map, modelling an assignment
`node.level = v` (resp. `node.importance = v`) to the node with that id. -/
def update (m : String → Option α) (k : String) (v : α) : String → Option α :=
  fun x => if x = k then some v else m x

/-- `Math.max(0, 10 - level * 2)`: the importance given to a node freshly
discovered from a queue entry whose stored level is `l` (the parent's
level). -/
def imp0 (l : Nat) : Int :=
  max 0 (10 - 2 * (l : Int))

/-- The mutable state of `assignLevels`: the `visited` set, the FIFO
`queue` (id paired with the stored level), and the per-node `level` /
`importance` properties, keyed by id. -/
structure BState where
  visited : List String
  queue : List (String × Nat)
  level : String → Option Nat
  importance : String → Option Int

/-- The body of `connectedEdges.forEach(...)` of `assignLevels` for a
single edge `e`, with `l` the level popped with the current node:
look up the target (`this.nodes.find(n => n.id === edge.target)`); if it
exists and is unvisited, set `level = l + 1`,
`importance = Math.max(0, 10 - l * 2)`, push it and mark it visited. -/
def visitTarget (nodes : List LNode) (l : Nat) (s : BState) (e : LEdge) : BState :=
  match nodes.find? (fun n => n.id == e.target) with
  | some t =>
    if t.id ∈ s.visited then s
    else
      { visited := s.visited ++ [t.id]
        queue := s.queue ++ [(t.id, l + 1)]
        level := update s.level t.id (l + 1)
        importance := update s.importance t.id (imp0 l) }
  | none => s

/-- One iteration of the `while (queue.length > 0)` loop: shift the front
entry `(u, l)`, filter the edges with `edge.source === u`, and process
each with `visitTarget`. -/
def expandStep (nodes : List LNode) (edges : List LEdge) (st : BState) : BState :=
  match st.queue with
  | [] => st
  | (u, l) :: rest =>
    (edges.filter (fun e => e.source == u)).foldl (visitTarget nodes l)
      { st with queue := rest }

/-- The `while` loop of `assignLevels`, with explicit fuel.
`bfsGo_queue_eq_nil` shows the fuel used by `bfsFinal` always drains the
queue, so this is the loop's true fixpoint. -/
def bfsGo (nodes : List LNode) (edges : List LEdge) : Nat → BState → BState
  | 0, st => st
  | fuel + 1, st =>
    match st.queue with
    | [] => st
    | _ :: _ => bfsGo nodes edges fuel (expandStep nodes edges st)

/-- The body of the seeding loop `entryNodes.forEach(...)`: the entry node
gets `level = 0`, `importance = 10`, is pushed at level 0 and marked
visited. -/
def seedEntry (s : BState) (n : LNode) : BState :=
  { visited := s.visited ++ [n.id]
    queue := s.queue ++ [(n.id, 0)]
    level := update s.level n.id 0
    importance := update s.importance n.id (10 : Int) }

/-- The seeding loop `entryNodes.forEach(...)` over the empty initial
state. -/
def initState (entryNodes : List LNode) : BState :=
  entryNodes.foldl seedEntry ⟨[], [], fun _ => none, fun _ => none⟩

/-- Fuel for the traversal: one unit per node plus one per seeded queue
entry bounds the total number of loop iterations. -/
def bfsFuel (nodes : List LNode) (st : BState) : Nat :=
  nodes.length + st.queue.length

/-- The state after the breadth-first traversal of `assignLevels`
(entry seeding followed by the queue loop). -/
def bfsFinal (nodes : List LNode) (edges : List LEdge) : BState :=
  let st0 := initState (nodes.filter (fun n => n.is_entry))
  bfsGo nodes edges (bfsFuel nodes st0) st0

/-- The body of the final loop of `assignLevels`: a node whose id the
traversal never visited gets `level = 5` and `importance = 1`. -/
def fallbackStep (st : BState) (p : (String → Option Nat) × (String → Option Int))
    (n : LNode) : (String → Option Nat) × (String → Option Int) :=
  if n.id ∈ st.visited then p
  else (update p.1 n.id 5, update p.2 n.id (1 : Int))

/-- The final loop of `assignLevels`
(`this.nodes.forEach(... if (!visited.has(node.id)) ...)`): unvisited
nodes get `level = 5` and `importance = 1`. -/
def applyFallback (nodes : List LNode) (st : BState) :
    (String → Option Nat) × (String → Option Int) :=
  nodes.foldl (fallbackStep st) (st.level, st.importance)

/-- `assignLevels` as a whole: the final id-keyed `level` and
`importance` properties. -/
def assignLevels (nodes : List LNode) (edges : List LEdge) :
    (String → Option Nat) × (String → Option Int) :=
  applyFallback nodes (bfsFinal nodes edges)

/-! ### Reachability along directed edges

`pathReachB k v` decides whether `v` is the endpoint of a directed path
with exactly `k` edges starting at an entry node, where every vertex on
the path is the id of a node present in the node list (edges whose
endpoints are not in the node set are never traversed by the engine). -/

/-- `v` is the id of some node in the list. -/
def isNodeIdB (nodes : List LNode) (v : String) : Bool :=
  nodes.any (fun n => n.id == v)

/-- Some edge goes from `u` to `v`. -/
def hasEdgeB (edges : List LEdge) (u v : String) : Bool :=
  edges.any (fun e => e.source == u && e.target == v)

/-- Directed path of exactly `k` edges from an entry node to `v`, all of
whose vertices are ids of nodes in the list. -/
def pathReachB (nodes : List LNode) (edges : List LEdge) : Nat → String → Bool
  | 0, v => nodes.any (fun n => n.id == v && n.is_entry)
  | k + 1, v =>
    isNodeIdB nodes v &&
      nodes.any (fun n => pathReachB nodes edges k n.id && hasEdgeB edges n.id v)

/-! ### Group derivation (`groupNodes`) -/

/-- JavaScript `String.prototype.split` with a single-character separator:
splits at every occurrence, keeping empty segments; the result is never
empty (`""` splits to `[""]`). -/
def splitOnChar (c : Char) : List Char → List (List Char)
  | [] => [[]]
  | x :: xs =>
    match splitOnChar c xs with
    | [] => [[]]
    | s :: rest => if x = c then [] :: s :: rest else (x :: s) :: rest

/-- JavaScript `Array.prototype.join` with a single-character separator. -/
def intercalateChar (c : Char) : List (List Char) → List Char
  | [] => []
  | [s] => s
  | s :: rest => s ++ c :: intercalateChar c rest

/-- The group computed by `groupNodes` for a node with the given `file`:
split on `'/'`; with more than one segment the group is the directory
(all but the last segment rejoined), otherwise `"root"`. -/
def groupOf (file : String) : String :=
  if (splitOnChar '/' file.data).length > 1 then
    ⟨intercalateChar '/' ((splitOnChar '/' file.data).dropLast)⟩
  else
    "root"

/-! ### Decorated nodes and positioning (`calculatePositions`) -/

/-- A node as it stands after `assignLevels` and `groupNodes`: the input
fields plus the `level`, `importance` and `group` properties. -/
structure DNode where
  id : String
  file : String
  is_entry : Bool
  level : Option Nat
  importance : Option Int
  group : String
deriving Repr, DecidableEq

/-- The node list after the first two passes. -/
def decorate (nodes : List LNode) (edges : List LEdge) : List DNode :=
  nodes.map (fun n =>
    { id := n.id
      file := n.file
      is_entry := n.is_entry
      level := (assignLevels nodes edges).1 n.id
      importance := (assignLevels nodes edges).2 n.id
      group := groupOf n.file })

/-- `node.level || 0`: the level key used to bucket nodes. -/
def nlevel (d : DNode) : Nat :=
  d.level.getD 0

/-- `node.group || 'root'`: the group key used to bucket nodes (an empty
group string is falsy in JavaScript). -/
def gkey (d : DNode) : String :=
  if d.group = "" then "root" else d.group

/-- `node.importance || 0`: the sort key of the in-group comparator. -/
def impOf (d : DNode) : Int :=
  d.importance.getD 0

/-- Stable insertion for the descending-importance sort: `d` moves past
the elements of strictly greater importance and lands in front of the
first element of smaller or equal importance, so that ties keep their
original relative order. -/
def insertByImp (d : DNode) : List DNode → List DNode
  | [] => [d]
  | x :: xs => if impOf d < impOf x then x :: insertByImp d xs else d :: x :: xs

/-- `groupNodes.sort((a, b) => (b.importance || 0) - (a.importance || 0))`:
a stable sort placing larger importance first (JavaScript `Array.sort`
is stable). -/
def sortImp : List DNode → List DNode
  | [] => []
  | x :: xs => insertByImp x (sortImp xs)

/-- First-occurrence key order of a JavaScript `Map` built by insertion. -/
def distinctKeys [BEq α] (l : List α) : List α :=
  l.foldl (fun acc x => if acc.contains x then acc else acc ++ [x]) []

/-- Stable ascending insertion for the numeric sort of the level keys. -/
def insertAsc (a : Nat) : List Nat → List Nat
  | [] => [a]
  | x :: xs => if a < x then a :: x :: xs else x :: insertAsc a xs

/-- `Array.from(keys).sort((a, b) => a - b)`: ascending numeric sort. -/
def sortNat : List Nat → List Nat
  | [] => []
  | x :: xs => insertAsc x (sortNat xs)

/-- `groupNodes.forEach((node, index) => node.position = {x: levelX +
index * nodeSpacing, y: globalY})`: lay a sorted group out left to right
from cursor `x`, 250 apart, at height `y`. -/
def placeRow : List DNode → Nat → Nat → List (DNode × Nat × Nat)
  | [], _, _ => []
  | d :: ds, x, y => (d, x, y) :: placeRow ds (x + 250) y

/-- The per-level loop over `groupsAtLevel`: sort each group's bucket by
descending importance, place it at the current cursor, then advance the
cursor by `max(groupNodes.length * nodeSpacing, groupSpacing)`. -/
def placeGroups : List (List DNode) → Nat → Nat → List (DNode × Nat × Nat)
  | [], _, _ => []
  | b :: bs, x, y =>
    let sb := sortImp b
    placeRow sb x y ++ placeGroups bs (x + max (sb.length * 250) 400) y

/-- The group buckets of one level, in first-occurrence order of the
group keys among that level's nodes (the `groupsAtLevel` map). -/
def bucketsAt (dn : List DNode) (L : Nat) : List (List DNode) :=
  (distinctKeys ((dn.filter (fun d => nlevel d == L)).map gkey)).map
    (fun g => (dn.filter (fun d => nlevel d == L)).filter (fun d => gkey d == g))

/-- The outer loop over `sortedLevels`: each level's groups start at
`levelX = 50`, and `globalY` advances by `levelHeight = 300` per level. -/
def placeLevels (dn : List DNode) : List Nat → Nat → List (DNode × Nat × Nat)
  | [], _ => []
  | L :: Ls, y => placeGroups (bucketsAt dn L) 50 y ++ placeLevels dn Ls (y + 300)

/-- `Array.from(this.nodesByLevel.keys()).sort((a, b) => a - b)`. -/
def sortedLevels (dn : List DNode) : List Nat :=
  sortNat (distinctKeys (dn.map nlevel))

/-- Every node paired with the position `calculatePositions` assigns it. -/
def positioned (dn : List DNode) : List (DNode × Nat × Nat) :=
  placeLevels dn (sortedLevels dn) 50

/-- An output node: the decorated fields plus the assigned position. -/
structure PNode where
  id : String
  file : String
  is_entry : Bool
  level : Option Nat
  importance : Option Int
  group : String
  position : Option (Nat × Nat)
deriving Repr, DecidableEq

/-- `HierarchicalLayout.layout`: assign levels, groups and positions and
return the decorated node list (in input order). -/
def layout (nodes : List LNode) (edges : List LEdge) : List PNode :=
  let dn := decorate nodes edges
  let pos := positioned dn
  dn.map (fun d =>
    { id := d.id
      file := d.file
      is_entry := d.is_entry
      level := d.level
      importance := d.importance
      group := d.group
      position := (pos.find? (fun e => e.1.id == d.id)).map (fun e => e.2) })

/-- The two-node scenario of the specification: entry `A` and plain `B`,
both in `src/app.ts`, with the single edge `A → B`. -/
def scenarioNodes : List LNode :=
  [⟨"A", "src/app.ts", true⟩, ⟨"B", "src/app.ts", false⟩]

/-- The single edge `A → B` of the scenario. -/
def scenarioEdges : List LEdge :=
  [⟨"A", "B"⟩]

/-- A six-level chain `E → n1 → n2 → n3 → n4 → n5` plus a node `U` that no
entry point reaches: `n5` is reached at hop distance 5, which is exactly
the fallback level `U` receives. -/
def chainNodes : List LNode :=
  [⟨"E", "a.ts", true⟩, ⟨"n1", "a.ts", false⟩, ⟨"n2", "a.ts", false⟩,
   ⟨"n3", "a.ts", false⟩, ⟨"n4", "a.ts", false⟩, ⟨"n5", "a.ts", false⟩,
   ⟨"U", "a.ts", false⟩]

/-- The edges of the six-level chain. -/
def chainEdges : List LEdge :=
  [⟨"E", "n1"⟩, ⟨"n1", "n2"⟩, ⟨"n2", "n3"⟩, ⟨"n3", "n4"⟩, ⟨"n4", "n5"⟩]

/-! ### Auxiliary definitions for the proofs -/

/-- Number of nodes whose id is not yet visited. -/
def unvisCount (nodes : List LNode) (vis : List String) : Nat :=
  nodes.countP (fun n => decide (n.id ∉ vis))

/-- Loop measure: unvisited nodes plus pending queue entries.  It strictly
decreases at every iteration of the `while` loop. -/
def measureB (nodes : List LNode) (st : BState) : Nat :=
  unvisCount nodes st.visited + st.queue.length

/-- The invariant of the breadth-first traversal of `assignLevels`.
`vis_lev` states that every visited node already carries its final level,
which is the least length of a directed entry path to it; `expanded` states
that a visited node no longer in the queue has had all its out-edges
processed; `q_sorted` / `q_window` are the usual FIFO level-monotonicity
facts. -/
structure Inv (nodes : List LNode) (edges : List LEdge) (st : BState) : Prop where
  vis_node : ∀ v ∈ st.visited, isNodeIdB nodes v = true
  vis_lev : ∀ v ∈ st.visited, ∃ d, st.level v = some d ∧
    pathReachB nodes edges d v = true ∧
    ∀ k, pathReachB nodes edges k v = true → d ≤ k
  unvis_lev : ∀ v, v ∉ st.visited → st.level v = none
  q_vis : ∀ p ∈ st.queue, p.1 ∈ st.visited ∧ st.level p.1 = some p.2
  q_sorted : st.queue.Pairwise (fun a b => a.2 ≤ b.2)
  q_window : ∀ p ∈ st.queue, ∀ r ∈ st.queue, p.2 ≤ r.2 + 1
  expanded : ∀ v ∈ st.visited, (∀ p ∈ st.queue, p.1 ≠ v) →
    ∀ e ∈ edges, e.source = v → ∀ t ∈ nodes, t.id = e.target → t.id ∈ st.visited
  entry_vis : ∀ n ∈ nodes, n.is_entry = true → n.id ∈ st.visited
  imp_lev : ∀ v ∈ st.visited,
    (st.level v = some 0 ∧ st.importance v = some 10) ∨
    (∃ l, st.level v = some (l + 1) ∧ st.importance v = some (imp0 l))

/-! ### The single-edge step of the traversal -/

theorem visitTarget_cases (nodes : List LNode) (l : Nat) (s : BState) (e : LEdge) :
    visitTarget nodes l s e = s ∨
    ∃ t, nodes.find? (fun n => n.id == e.target) = some t ∧ t.id ∉ s.visited ∧
      visitTarget nodes l s e =
        { visited := s.visited ++ [t.id]
          queue := s.queue ++ [(t.id, l + 1)]
          level := update s.level t.id (l + 1)
          importance := update s.importance t.id (imp0 l) } := by
  unfold visitTarget
  cases h : nodes.find? (fun n => n.id == e.target) with
  | none => exact Or.inl rfl
  | some t =>
    by_cases hv : t.id ∈ s.visited
    · simp [hv]
    · exact Or.inr ⟨t, rfl, hv, by simp [hv]⟩

theorem visitTarget_visited_mono {nodes : List LNode} {l : Nat} {s : BState} {e : LEdge}
    {x : String} (h : x ∈ s.visited) : x ∈ (visitTarget nodes l s e).visited := by
  rcases visitTarget_cases nodes l s e with hc | ⟨t, _, _, hc⟩ <;> rw [hc]
  · exact h
  · exact List.mem_append_left _ h

theorem visitTarget_maps_of_visited {nodes : List LNode} {l : Nat} {s : BState} {e : LEdge}
    {x : String} (h : x ∈ s.visited) :
    (visitTarget nodes l s e).level x = s.level x ∧
    (visitTarget nodes l s e).importance x = s.importance x := by
  rcases visitTarget_cases nodes l s e with hc | ⟨t, _, hnv, hc⟩ <;> rw [hc]
  · exact ⟨rfl, rfl⟩
  · have hx : x ≠ t.id := fun hxe => hnv (hxe ▸ h)
    exact ⟨by simp [update, hx], by simp [update, hx]⟩

theorem foldVT_visited_mono {nodes : List LNode} {l : Nat} (es : List LEdge) :
    ∀ {s : BState} {x : String}, x ∈ s.visited →
      x ∈ (es.foldl (visitTarget nodes l) s).visited := by
  induction es with
  | nil => intro s x h; exact h
  | cons e es ih =>
    intro s x h
    exact ih (visitTarget_visited_mono h)

theorem foldVT_maps_of_visited {nodes : List LNode} {l : Nat} (es : List LEdge) :
    ∀ {s : BState} {x : String}, x ∈ s.visited →
      (es.foldl (visitTarget nodes l) s).level x = s.level x ∧
      (es.foldl (visitTarget nodes l) s).importance x = s.importance x := by
  induction es with
  | nil => intro s x _; exact ⟨rfl, rfl⟩
  | cons e es ih =>
    intro s x h
    have h1 := @visitTarget_maps_of_visited nodes l s e x h
    have h2 := ih (@visitTarget_visited_mono nodes l s e x h)
    exact ⟨h2.1.trans h1.1, h2.2.trans h1.2⟩

theorem foldVT_unvis_lev {nodes : List LNode} {l : Nat} (es : List LEdge) :
    ∀ {s : BState}, (∀ x, x ∉ s.visited → s.level x = none) →
      ∀ x, x ∉ (es.foldl (visitTarget nodes l) s).visited →
        (es.foldl (visitTarget nodes l) s).level x = none := by
  induction es with
  | nil => intro s h x hx; exact h x hx
  | cons e es ih =>
    intro s h x hx
    refine ih ?_ x hx
    intro y hy
    rcases visitTarget_cases nodes l s e with hc | ⟨t, _, _, hc⟩ <;> rw [hc] at hy ⊢
    · exact h y hy
    · have hyv : y ∉ s.visited := fun hm => hy (List.mem_append_left _ hm)
      have hyt : y ≠ t.id := by
        intro hye; exact hy (List.mem_append_right _ (by simp [hye]))
      simp [update, hyt, h y hyv]

theorem foldVT_queue_shape {nodes : List LNode} {l : Nat} (es : List LEdge) :
    ∀ (s : BState), ∃ ex,
      (es.foldl (visitTarget nodes l) s).queue = s.queue ++ ex ∧
      ∀ p ∈ ex, p.2 = l + 1 ∧ p.1 ∈ (es.foldl (visitTarget nodes l) s).visited ∧
        p.1 ∉ s.visited := by
  induction es with
  | nil => intro s; exact ⟨[], by simp, by simp⟩
  | cons e es ih =>
    intro s
    rcases visitTarget_cases nodes l s e with hc | ⟨t, _, hnv, hc⟩
    · simpa [List.foldl_cons, hc] using ih s
    · rcases ih (visitTarget nodes l s e) with ⟨ex, hq, hp⟩
      refine ⟨(t.id, l + 1) :: ex, ?_, ?_⟩
      · rw [List.foldl_cons] at *
        rw [hq, hc]
        simp
      · intro p hp2
        rcases List.mem_cons.mp hp2 with hhd | htl
        · subst hhd
          refine ⟨rfl, ?_, hnv⟩
          exact foldVT_visited_mono es (by rw [hc]; exact List.mem_append_right _ (by simp))
        · rcases hp p htl with ⟨h1, h2, h3⟩
          refine ⟨h1, h2, fun hm => h3 ?_⟩
          rw [hc]
          exact List.mem_append_left _ hm

theorem foldVT_new_props {nodes : List LNode} {edges : List LEdge} {l : Nat} {u : String}
    (hu_node : ∃ nu ∈ nodes, nu.id = u)
    (hu_reach : pathReachB nodes edges l u = true)
    (es : List LEdge) (hes : ∀ e ∈ es, e ∈ edges ∧ e.source = u) :
    ∀ (s : BState), ∀ x ∈ (es.foldl (visitTarget nodes l) s).visited, x ∉ s.visited →
      (es.foldl (visitTarget nodes l) s).level x = some (l + 1) ∧
      (es.foldl (visitTarget nodes l) s).importance x = some (imp0 l) ∧
      pathReachB nodes edges (l + 1) x = true := by
  induction es with
  | nil => intro s x hx hnx; exact absurd hx hnx
  | cons e es ih =>
    intro s x hx hnx
    have he := hes e (by simp)
    have hes' : ∀ e' ∈ es, e' ∈ edges ∧ e'.source = u := fun e' h => hes e' (by simp [h])
    rw [List.foldl_cons] at hx ⊢
    by_cases hx1 : x ∈ (visitTarget nodes l s e).visited
    · -- x became visited in this very step (or was before, excluded)
      rcases visitTarget_cases nodes l s e with hc | ⟨t, hft, hnv, hc⟩
      · rw [hc] at hx1; exact absurd hx1 hnx
      · have hx1' := hx1
        rw [hc] at hx1'
        rcases List.mem_append.mp hx1' with hold | hnew
        · exact absurd hold hnx
        · have hxt : x = t.id := by simpa using hnew
          subst hxt
          have hmaps := @foldVT_maps_of_visited nodes l es
            (visitTarget nodes l s e) t.id hx1
          have hlev : (visitTarget nodes l s e).level t.id = some (l + 1) := by
            rw [hc]; simp [update]
          have himp : (visitTarget nodes l s e).importance t.id = some (imp0 l) := by
            rw [hc]; simp [update]
          refine ⟨hmaps.1.trans hlev, hmaps.2.trans himp, ?_⟩
          -- t.id is reachable in l + 1 steps through u
          have htmem := List.mem_of_find?_eq_some hft
          have htid' : t.id = e.target := by
            have h := List.find?_some hft
            simpa using h
          rcases hu_node with ⟨nu, hnu_mem, hnu_id⟩
          show (isNodeIdB nodes t.id &&
            nodes.any
              (fun n => pathReachB nodes edges l n.id && hasEdgeB edges n.id t.id)) = true
          refine Bool.and_eq_true_iff.mpr ⟨?_, ?_⟩
          · exact List.any_eq_true.mpr ⟨t, htmem, by simp⟩
          · refine List.any_eq_true.mpr ⟨nu, hnu_mem, Bool.and_eq_true_iff.mpr ⟨?_, ?_⟩⟩
            · rw [hnu_id]; exact hu_reach
            · refine List.any_eq_true.mpr ⟨e, he.1, ?_⟩
              simp [hnu_id, he.2, htid']
    · exact ih hes' (visitTarget nodes l s e) x hx hx1

theorem foldVT_new_in_queue {nodes : List LNode} {l : Nat} (es : List LEdge) :
    ∀ (s : BState), ∀ x ∈ (es.foldl (visitTarget nodes l) s).visited, x ∉ s.visited →
      ∃ p ∈ (es.foldl (visitTarget nodes l) s).queue, p.1 = x := by
  induction es with
  | nil => intro s x hx hnx; exact absurd hx hnx
  | cons e es ih =>
    intro s x hx hnx
    rw [List.foldl_cons] at hx ⊢
    by_cases hx1 : x ∈ (visitTarget nodes l s e).visited
    · rcases visitTarget_cases nodes l s e with hc | ⟨t, _, hnv, hc⟩
      · rw [hc] at hx1; exact absurd hx1 hnx
      · rw [hc] at hx1
        rcases List.mem_append.mp hx1 with hold | hnew
        · exact absurd hold hnx
        · have hxt : x = t.id := by simpa using hnew
          subst hxt
          have hqmem : (t.id, l + 1) ∈ (visitTarget nodes l s e).queue := by
            rw [hc]; exact List.mem_append_right _ (by simp)
          rcases @foldVT_queue_shape nodes l es (visitTarget nodes l s e)
            with ⟨ex, hq, _⟩
          exact ⟨(t.id, l + 1), by rw [hq]; exact List.mem_append_left _ hqmem, rfl⟩
    · exact ih (visitTarget nodes l s e) x hx hx1

theorem foldVT_coverage {nodes : List LNode} {l : Nat} (es : List LEdge) :
    ∀ (s : BState), ∀ e ∈ es, ∀ t ∈ nodes, t.id = e.target →
      t.id ∈ (es.foldl (visitTarget nodes l) s).visited := by
  induction es with
  | nil => intro s e he; simp at he
  | cons e0 es ih =>
    intro s e he t ht htid
    rw [List.foldl_cons]
    rcases List.mem_cons.mp he with hee | hee
    · subst hee
      -- the target is visited after this very step
      have hfind : (nodes.find? (fun n => n.id == e.target)).isSome := by
        rw [List.find?_isSome]
        exact ⟨t, ht, by simp [htid]⟩
      rcases Option.isSome_iff_exists.mp hfind with ⟨t', hft⟩
      have ht'id : t'.id = e.target := by
        have h := List.find?_some hft
        simpa using h
      have : t.id ∈ (visitTarget nodes l s e).visited := by
        unfold visitTarget
        rw [hft]
        by_cases hv : t'.id ∈ s.visited
        · simp [hv, htid, ← ht'id]
        · simp [hv]
          rw [htid, ← ht'id]
          simp
      exact foldVT_visited_mono es this
    · exact ih (visitTarget nodes l s e0) e hee t ht htid

theorem unvisCount_append_single {nodes : List LNode} {vis : List String} {t : String}
    (hmem : ∃ n ∈ nodes, n.id = t) (hnv : t ∉ vis) :
    unvisCount nodes (vis ++ [t]) + 1 ≤ unvisCount nodes vis := by
  have hsplit := List.countP_eq_countP_filter_add nodes
    (fun n => decide (n.id ∉ vis)) (fun n => !(n.id == t))
  rw [List.countP_filter, List.countP_filter] at hsplit
  simp only [Bool.not_not] at hsplit
  have hA : List.countP (fun a => decide (a.id ∉ vis) && !(a.id == t)) nodes =
      unvisCount nodes (vis ++ [t]) := by
    refine List.countP_congr ?_
    intro x _
    constructor
    · intro hx
      rcases Bool.and_eq_true_iff.mp hx with ⟨h1, h2⟩
      simp only [decide_eq_true_eq] at h1 ⊢
      simp only [Bool.not_eq_true', beq_eq_false_iff_ne] at h2
      intro hm
      rcases List.mem_append.mp hm with hm | hm
      · exact h1 hm
      · exact h2 (by simpa using hm)
    · intro hx
      simp only [decide_eq_true_eq] at hx
      refine Bool.and_eq_true_iff.mpr ⟨?_, ?_⟩
      · simp only [decide_eq_true_eq]
        exact fun hm => hx (List.mem_append_left _ hm)
      · simp only [Bool.not_eq_true', beq_eq_false_iff_ne]
        exact fun he => hx (List.mem_append_right _ (by simp [he]))
  have hB : 0 < List.countP (fun a => decide (a.id ∉ vis) && a.id == t) nodes := by
    rcases hmem with ⟨n, hn, hid⟩
    refine List.countP_pos_iff.mpr ⟨n, hn, ?_⟩
    simp [hid, hnv]
  rw [hA] at hsplit
  unfold unvisCount at hsplit ⊢
  omega

theorem visitTarget_measure {nodes : List LNode} {l : Nat} (s : BState) (e : LEdge) :
    measureB nodes (visitTarget nodes l s e) ≤ measureB nodes s := by
  rcases visitTarget_cases nodes l s e with hc | ⟨t, hft, hnv, hc⟩ <;> rw [hc]
  have htmem : ∃ n ∈ nodes, n.id = t.id := ⟨t, List.mem_of_find?_eq_some hft, rfl⟩
  have := unvisCount_append_single htmem hnv
  unfold measureB
  simp only [List.length_append, List.length_cons, List.length_nil]
  omega

theorem foldVT_measure {nodes : List LNode} {l : Nat} (es : List LEdge) :
    ∀ (s : BState), measureB nodes (es.foldl (visitTarget nodes l) s) ≤ measureB nodes s := by
  induction es with
  | nil => intro s; exact Nat.le_refl _
  | cons e es ih =>
    intro s
    exact (ih (visitTarget nodes l s e)).trans (visitTarget_measure s e)

theorem expandStep_measure {nodes : List LNode} {edges : List LEdge} {st : BState}
    {u : String} {l : Nat} {rest : List (String × Nat)} (hq : st.queue = (u, l) :: rest) :
    measureB nodes (expandStep nodes edges st) < measureB nodes st := by
  have hstep : expandStep nodes edges st =
      (edges.filter (fun e => e.source == u)).foldl (visitTarget nodes l)
        { st with queue := rest } := by
    unfold expandStep
    rw [hq]
  rw [hstep]
  have hfold := @foldVT_measure nodes l
    (edges.filter (fun e => e.source == u)) { st with queue := rest }
  have hrest : measureB nodes { st with queue := rest } + 1 = measureB nodes st := by
    unfold measureB
    rw [hq]
    simp
    omega
  omega

theorem bfsGo_queue_eq_nil {nodes : List LNode} {edges : List LEdge} :
    ∀ (fuel : Nat) (st : BState), measureB nodes st ≤ fuel →
      (bfsGo nodes edges fuel st).queue = [] := by
  intro fuel
  induction fuel with
  | zero =>
    intro st h
    have : st.queue.length = 0 := by
      unfold measureB at h
      omega
    unfold bfsGo
    exact List.length_eq_zero.mp this
  | succ fuel ih =>
    intro st h
    unfold bfsGo
    cases hq : st.queue with
    | nil => exact hq
    | cons p rest =>
      refine ih (expandStep nodes edges st) ?_
      have := @expandStep_measure nodes edges st p.1 p.2 rest (by rw [hq])
      omega

theorem bfsGo_visited_mono {nodes : List LNode} {edges : List LEdge} :
    ∀ (fuel : Nat) (st : BState) (x : String), x ∈ st.visited →
      x ∈ (bfsGo nodes edges fuel st).visited := by
  intro fuel
  induction fuel with
  | zero => intro st x h; exact h
  | succ fuel ih =>
    intro st x h
    unfold bfsGo
    cases hq : st.queue with
    | nil => exact h
    | cons p rest =>
      refine ih (expandStep nodes edges st) x ?_
      unfold expandStep
      rw [hq]
      exact foldVT_visited_mono _ h

theorem bfsGo_maps_of_visited {nodes : List LNode} {edges : List LEdge} :
    ∀ (fuel : Nat) (st : BState) (x : String), x ∈ st.visited →
      (bfsGo nodes edges fuel st).level x = st.level x ∧
      (bfsGo nodes edges fuel st).importance x = st.importance x := by
  intro fuel
  induction fuel with
  | zero => intro st x _; exact ⟨rfl, rfl⟩
  | succ fuel ih =>
    intro st x h
    unfold bfsGo
    cases hq : st.queue with
    | nil => exact ⟨rfl, rfl⟩
    | cons p rest =>
      have hstep_vis : x ∈ (expandStep nodes edges st).visited := by
        unfold expandStep
        rw [hq]
        exact foldVT_visited_mono _ h
      have hstep_maps : (expandStep nodes edges st).level x = st.level x ∧
          (expandStep nodes edges st).importance x = st.importance x := by
        unfold expandStep
        rw [hq]
        exact foldVT_maps_of_visited _ h
      have := ih (expandStep nodes edges st) x hstep_vis
      exact ⟨this.1.trans hstep_maps.1, this.2.trans hstep_maps.2⟩

/-- At a state whose queue front carries level `l`, every unvisited node is
at entry distance at least `l + 1`. -/
theorem unvisited_dist_lb {nodes : List LNode} {edges : List LEdge} {st : BState}
    (hInv : Inv nodes edges st) {u : String} {l : Nat} {rest : List (String × Nat)}
    (hq : st.queue = (u, l) :: rest) :
    ∀ (k : Nat) (x : String), x ∉ st.visited → pathReachB nodes edges k x = true →
      l + 1 ≤ k := by
  intro k
  induction k with
  | zero =>
    intro x hx hr
    rcases List.any_eq_true.mp hr with ⟨n, hn, hp⟩
    rcases Bool.and_eq_true_iff.mp hp with ⟨hid, hent⟩
    have hid' : n.id = x := by simpa using hid
    exact absurd (hid' ▸ hInv.entry_vis n hn hent) hx
  | succ k ih =>
    intro x hx hr
    rcases Bool.and_eq_true_iff.mp hr with ⟨hxnode, hany⟩
    rcases List.any_eq_true.mp hany with ⟨n, hn, hp⟩
    rcases Bool.and_eq_true_iff.mp hp with ⟨hreach, hedge⟩
    by_cases hw : n.id ∈ st.visited
    · by_cases hwq : ∀ p ∈ st.queue, p.1 ≠ n.id
      · -- n.id is fully expanded, so x would be visited
        rcases List.any_eq_true.mp hedge with ⟨e, he, hep⟩
        rcases Bool.and_eq_true_iff.mp hep with ⟨hes, het⟩
        rcases List.any_eq_true.mp hxnode with ⟨t, ht, htid⟩
        have hxvis := hInv.expanded n.id hw hwq e he (by simpa using hes) t ht
          (by simp only [beq_iff_eq] at htid het; rw [htid, ← het])
        have htid' : t.id = x := by simpa using htid
        exact absurd (htid' ▸ hxvis) hx
      · push_neg at hwq
        rcases hwq with ⟨p, hpq, hpid⟩
        have hq_vis := hInv.q_vis p hpq
        rcases hInv.vis_lev p.1 hq_vis.1 with ⟨d, hd, _, hmin⟩
        have hdp : d = p.2 := by
          rw [hq_vis.2] at hd
          exact (Option.some_injective _ hd).symm ▸ rfl
        have hple : p.2 ≤ k := by
          have := hmin k (by rw [hpid]; exact hreach)
          omega
        have hlp : l ≤ p.2 := by
          rw [hq] at hpq
          rcases List.mem_cons.mp hpq with h | h
          · rw [h]
          · have hs := hInv.q_sorted
            rw [hq] at hs
            exact (List.pairwise_cons.mp hs).1 p h
        omega
    · have := ih n.id hw hreach
      omega

/-- One iteration of the queue loop preserves the traversal invariant. -/
theorem expandStep_inv {nodes : List LNode} {edges : List LEdge} {st : BState}
    (hInv : Inv nodes edges st) : Inv nodes edges (expandStep nodes edges st) := by
  cases hq : st.queue with
  | nil =>
    have hstep : expandStep nodes edges st = st := by
      unfold expandStep
      rw [hq]
    rw [hstep]
    exact hInv
  | cons front rest =>
    obtain ⟨u, l⟩ := front
    have hstep : expandStep nodes edges st =
        (edges.filter (fun e => e.source == u)).foldl (visitTarget nodes l)
          { st with queue := rest } := by
      unfold expandStep
      rw [hq]
    set es := edges.filter (fun e => e.source == u) with hes_def
    set s0 : BState := { st with queue := rest } with hs0
    set fin := es.foldl (visitTarget nodes l) s0 with hfin
    rw [hstep]
    have hfront_q : (u, l) ∈ st.queue := by rw [hq]; simp
    have hu_vis : u ∈ st.visited := (hInv.q_vis _ hfront_q).1
    have hu_lev : st.level u = some l := (hInv.q_vis _ hfront_q).2
    have hu_reach : pathReachB nodes edges l u = true := by
      rcases hInv.vis_lev u hu_vis with ⟨d, hd, hre, _⟩
      rw [hu_lev] at hd
      injection hd with hd
      rw [hd]
      exact hre
    have hu_node : ∃ nu ∈ nodes, nu.id = u := by
      have h := hInv.vis_node u hu_vis
      rcases List.any_eq_true.mp h with ⟨n, hn, hp⟩
      exact ⟨n, hn, by simpa using hp⟩
    have hes : ∀ e ∈ es, e ∈ edges ∧ e.source = u := by
      intro e he
      rw [hes_def] at he
      have h := List.mem_filter.mp he
      exact ⟨h.1, by simpa using h.2⟩
    have hmono : ∀ x ∈ st.visited, x ∈ fin.visited :=
      fun x hx => foldVT_visited_mono es hx
    have hpres : ∀ x ∈ st.visited,
        fin.level x = st.level x ∧ fin.importance x = st.importance x :=
      fun x hx => foldVT_maps_of_visited es hx
    have hnew : ∀ x ∈ fin.visited, x ∉ st.visited →
        fin.level x = some (l + 1) ∧ fin.importance x = some (imp0 l) ∧
        pathReachB nodes edges (l + 1) x = true :=
      fun x hx hnx => foldVT_new_props hu_node hu_reach es hes s0 x hx hnx
    have hnew_q : ∀ x ∈ fin.visited, x ∉ st.visited → ∃ p ∈ fin.queue, p.1 = x :=
      fun x hx hnx => foldVT_new_in_queue es s0 x hx hnx
    have hunv : ∀ x, x ∉ fin.visited → fin.level x = none :=
      foldVT_unvis_lev es (fun x hx => hInv.unvis_lev x hx)
    obtain ⟨ex, hq_shape, hex⟩ := @foldVT_queue_shape nodes l es s0
    have hq_shape' : fin.queue = rest ++ ex := hq_shape
    have hrest_lb : ∀ p ∈ rest, l ≤ p.2 := by
      have hs := hInv.q_sorted
      rw [hq] at hs
      exact fun p hp => (List.pairwise_cons.mp hs).1 p hp
    have hrest_ub : ∀ p ∈ rest, p.2 ≤ l + 1 := by
      intro p hp
      exact hInv.q_window p (by rw [hq]; simp [hp]) (u, l) (by rw [hq]; simp)
    have hfin_bounds : ∀ p ∈ fin.queue, l ≤ p.2 ∧ p.2 ≤ l + 1 := by
      intro p hp
      rw [hq_shape'] at hp
      rcases List.mem_append.mp hp with h | h
      · exact ⟨hrest_lb p h, hrest_ub p h⟩
      · have := (hex p h).1
        omega
    have hlb := unvisited_dist_lb hInv hq
    refine ⟨?_, ?_, ?_, ?_, ?_, ?_, ?_, ?_, ?_⟩
    · -- vis_node
      intro v hv
      by_cases hvs : v ∈ st.visited
      · exact hInv.vis_node v hvs
      · have hre := (hnew v hv hvs).2.2
        exact (Bool.and_eq_true_iff.mp hre).1
    · -- vis_lev
      intro v hv
      by_cases hvs : v ∈ st.visited
      · rcases hInv.vis_lev v hvs with ⟨d, hd, hre, hmin⟩
        exact ⟨d, (hpres v hvs).1.trans hd, hre, hmin⟩
      · rcases hnew v hv hvs with ⟨hd, _, hre⟩
        exact ⟨l + 1, hd, hre, fun k hk => hlb k v hvs hk⟩
    · -- unvis_lev
      exact hunv
    · -- q_vis
      intro p hp
      rw [hq_shape'] at hp
      rcases List.mem_append.mp hp with h | h
      · have hpq : p ∈ st.queue := by rw [hq]; simp [h]
        have h1 := hInv.q_vis p hpq
        exact ⟨hmono p.1 h1.1, (hpres p.1 h1.1).1.trans h1.2⟩
      · rcases hex p h with ⟨hl, hvis, hnvis⟩
        have := (hnew p.1 hvis hnvis).1
        rw [hl]
        exact ⟨hvis, this⟩
    · -- q_sorted
      rw [hq_shape']
      refine List.pairwise_append.mpr ⟨?_, ?_, ?_⟩
      · have hs := hInv.q_sorted
        rw [hq] at hs
        exact (List.pairwise_cons.mp hs).2
      · refine List.pairwise_of_forall_mem_list ?_
        intro a ha b hb
        rw [(hex a ha).1, (hex b hb).1]
      · intro a ha b hb
        rw [(hex b hb).1]
        exact hrest_ub a ha
    · -- q_window
      intro p hp r hr
      have h1 := hfin_bounds p hp
      have h2 := hfin_bounds r hr
      omega
    · -- expanded
      intro v hv hvq e he hesrc t ht htid
      by_cases hvs : v ∈ st.visited
      · by_cases hvu : v = u
        · subst hvu
          have he_es : e ∈ es := by
            rw [hes_def]
            refine List.mem_filter.mpr ⟨he, ?_⟩
            simp [hesrc]
          exact foldVT_coverage es s0 e he_es t ht htid
        · by_cases hvst : ∀ p ∈ st.queue, p.1 ≠ v
          · exact hmono t.id (hInv.expanded v hvs hvst e he hesrc t ht htid)
          · push_neg at hvst
            rcases hvst with ⟨p, hpq, hpv⟩
            rw [hq] at hpq
            rcases List.mem_cons.mp hpq with h | h
            · rw [h] at hpv
              exact absurd hpv.symm hvu
            · have : p ∈ fin.queue := by
                rw [hq_shape']
                exact List.mem_append_left _ h
              exact absurd hpv (hvq p this)
      · rcases hnew_q v hv hvs with ⟨p, hp, hpv⟩
        exact absurd hpv (hvq p hp)
    · -- entry_vis
      intro n hn hent
      exact hmono n.id (hInv.entry_vis n hn hent)
    · -- imp_lev
      intro v hv
      by_cases hvs : v ∈ st.visited
      · rcases hInv.imp_lev v hvs with h | ⟨l0, h1, h2⟩
        · exact Or.inl ⟨(hpres v hvs).1.trans h.1, (hpres v hvs).2.trans h.2⟩
        · exact Or.inr ⟨l0, (hpres v hvs).1.trans h1, (hpres v hvs).2.trans h2⟩
      · rcases hnew v hv hvs with ⟨h1, h2, _⟩
        exact Or.inr ⟨l, h1, h2⟩

theorem bfsGo_inv {nodes : List LNode} {edges : List LEdge} :
    ∀ (fuel : Nat) (st : BState), Inv nodes edges st →
      Inv nodes edges (bfsGo nodes edges fuel st) := by
  intro fuel
  induction fuel with
  | zero => intro st h; exact h
  | succ fuel ih =>
    intro st h
    unfold bfsGo
    cases hq : st.queue with
    | nil => exact h
    | cons p rest => exact ih _ (expandStep_inv h)

theorem seedFold_visited_mono (es : List LNode) :
    ∀ {s : BState} {x : String}, x ∈ s.visited → x ∈ (es.foldl seedEntry s).visited := by
  induction es with
  | nil => intro s x h; exact h
  | cons n es ih =>
    intro s x h
    rw [List.foldl_cons]
    exact ih (List.mem_append_left _ h)

theorem seedFold_spec {nodes : List LNode} {edges : List LEdge} (es : List LNode)
    (hes : ∀ n ∈ es, n ∈ nodes ∧ n.is_entry = true) :
    ∀ s : BState,
      (∀ p ∈ s.queue, p.1 ∈ s.visited ∧ p.2 = 0) →
      (∀ x ∈ s.visited, s.level x = some 0 ∧ s.importance x = some 10 ∧
        pathReachB nodes edges 0 x = true ∧ isNodeIdB nodes x = true) →
      (∀ x, x ∉ s.visited → s.level x = none) →
      (∀ x ∈ s.visited, ∃ p ∈ s.queue, p.1 = x) →
      ((∀ p ∈ (es.foldl seedEntry s).queue,
          p.1 ∈ (es.foldl seedEntry s).visited ∧ p.2 = 0) ∧
       (∀ x ∈ (es.foldl seedEntry s).visited,
          (es.foldl seedEntry s).level x = some 0 ∧
          (es.foldl seedEntry s).importance x = some 10 ∧
          pathReachB nodes edges 0 x = true ∧ isNodeIdB nodes x = true) ∧
       (∀ x, x ∉ (es.foldl seedEntry s).visited →
          (es.foldl seedEntry s).level x = none) ∧
       (∀ x ∈ (es.foldl seedEntry s).visited,
          ∃ p ∈ (es.foldl seedEntry s).queue, p.1 = x) ∧
       (∀ n ∈ es, n.id ∈ (es.foldl seedEntry s).visited)) := by
  induction es with
  | nil =>
    intro s hA hB hC hD
    exact ⟨hA, hB, hC, hD, by simp⟩
  | cons n es ih =>
    intro s hA hB hC hD
    have hn := hes n (by simp)
    have hes' : ∀ m ∈ es, m ∈ nodes ∧ m.is_entry = true :=
      fun m h => hes m (by simp [h])
    rw [List.foldl_cons]
    have hA' : ∀ p ∈ (seedEntry s n).queue, p.1 ∈ (seedEntry s n).visited ∧ p.2 = 0 := by
      intro p hp
      rcases List.mem_append.mp hp with h | h
      · exact ⟨List.mem_append_left _ (hA p h).1, (hA p h).2⟩
      · have hp' : p = (n.id, 0) := by simpa using h
        subst hp'
        exact ⟨List.mem_append_right _ (by simp), rfl⟩
    have hB' : ∀ x ∈ (seedEntry s n).visited, (seedEntry s n).level x = some 0 ∧
        (seedEntry s n).importance x = some 10 ∧
        pathReachB nodes edges 0 x = true ∧ isNodeIdB nodes x = true := by
      intro x hx
      by_cases hxn : x = n.id
      · subst hxn
        refine ⟨by simp [seedEntry, update], by simp [seedEntry, update], ?_, ?_⟩
        · exact List.any_eq_true.mpr ⟨n, hn.1, by simp [hn.2]⟩
        · exact List.any_eq_true.mpr ⟨n, hn.1, by simp⟩
      · have hxv : x ∈ s.visited := by
          rcases List.mem_append.mp hx with h | h
          · exact h
          · exact absurd (by simpa using h) hxn
        have hb := hB x hxv
        exact ⟨by simp [seedEntry, update, hxn, hb.1],
          by simp [seedEntry, update, hxn, hb.2.1], hb.2.2.1, hb.2.2.2⟩
    have hC' : ∀ x, x ∉ (seedEntry s n).visited → (seedEntry s n).level x = none := by
      intro x hx
      have hxn : x ≠ n.id := by
        intro h
        exact hx (List.mem_append_right _ (by simp [h]))
      have hxv : x ∉ s.visited := fun h => hx (List.mem_append_left _ h)
      simp [seedEntry, update, hxn, hC x hxv]
    have hD' : ∀ x ∈ (seedEntry s n).visited, ∃ p ∈ (seedEntry s n).queue, p.1 = x := by
      intro x hx
      rcases List.mem_append.mp hx with h | h
      · rcases hD x h with ⟨p, hp, hpx⟩
        exact ⟨p, List.mem_append_left _ hp, hpx⟩
      · have hxn : x = n.id := by simpa using h
        exact ⟨(n.id, 0), List.mem_append_right _ (by simp), hxn.symm⟩
    have hres := ih hes' (seedEntry s n) hA' hB' hC' hD'
    refine ⟨hres.1, hres.2.1, hres.2.2.1, hres.2.2.2.1, ?_⟩
    intro m hm
    rcases List.mem_cons.mp hm with h | h
    · subst h
      exact seedFold_visited_mono es (List.mem_append_right _ (by simp))
    · exact hres.2.2.2.2 m h

theorem initState_inv (nodes : List LNode) (edges : List LEdge) :
    Inv nodes edges (initState (nodes.filter (fun n => n.is_entry))) := by
  have hes : ∀ n ∈ nodes.filter (fun n => n.is_entry), n ∈ nodes ∧ n.is_entry = true := by
    intro n hn
    have h := List.mem_filter.mp hn
    exact ⟨h.1, by simpa using h.2⟩
  have h0 := @seedFold_spec nodes edges (nodes.filter (fun n => n.is_entry)) hes
    ⟨[], [], fun _ => none, fun _ => none⟩ (by simp) (by simp) (fun x _ => rfl) (by simp)
  obtain ⟨hA, hB, hC, hD, hcov⟩ := h0
  refine ⟨?_, ?_, ?_, ?_, ?_, ?_, ?_, ?_, ?_⟩
  · exact fun v hv => (hB v hv).2.2.2
  · intro v hv
    exact ⟨0, (hB v hv).1, (hB v hv).2.2.1, fun k _ => Nat.zero_le k⟩
  · exact hC
  · intro p hp
    refine ⟨(hA p hp).1, ?_⟩
    rw [(hA p hp).2]
    exact (hB p.1 (hA p hp).1).1
  · refine List.pairwise_of_forall_mem_list ?_
    intro a ha b hb
    rw [(hA a ha).2, (hA b hb).2]
  · intro p hp r hr
    rw [(hA p hp).2]
    omega
  · intro v hv hvq e he hesrc t ht htid
    rcases hD v hv with ⟨p, hp, hpv⟩
    exact absurd hpv (hvq p hp)
  · intro n hn hent
    exact hcov n (List.mem_filter.mpr ⟨hn, by simp [hent]⟩)
  · intro v hv
    exact Or.inl ⟨(hB v hv).1, (hB v hv).2.1⟩

theorem bfsFinal_eq (nodes : List LNode) (edges : List LEdge) :
    bfsFinal nodes edges =
      bfsGo nodes edges (bfsFuel nodes (initState (nodes.filter (fun n => n.is_entry))))
        (initState (nodes.filter (fun n => n.is_entry))) := rfl

theorem bfsFinal_queue_nil (nodes : List LNode) (edges : List LEdge) :
    (bfsFinal nodes edges).queue = [] := by
  rw [bfsFinal_eq]
  refine bfsGo_queue_eq_nil _ _ ?_
  unfold measureB bfsFuel unvisCount
  have := List.countP_le_length
    (fun n : LNode => decide (n.id ∉ (initState (nodes.filter (fun n => n.is_entry))).visited))
    (l := nodes)
  omega

theorem bfsFinal_inv (nodes : List LNode) (edges : List LEdge) :
    Inv nodes edges (bfsFinal nodes edges) := by
  rw [bfsFinal_eq]
  exact bfsGo_inv _ _ (initState_inv nodes edges)

/-- Every node reachable from an entry node in any number of steps is
visited by the finished traversal. -/
theorem bfsFinal_complete (nodes : List LNode) (edges : List LEdge) :
    ∀ (k : Nat) (x : String), pathReachB nodes edges k x = true →
      x ∈ (bfsFinal nodes edges).visited := by
  intro k
  induction k with
  | zero =>
    intro x hr
    rcases List.any_eq_true.mp hr with ⟨n, hn, hp⟩
    rcases Bool.and_eq_true_iff.mp hp with ⟨hid, hent⟩
    have hid' : n.id = x := by simpa using hid
    exact hid' ▸ (bfsFinal_inv nodes edges).entry_vis n hn hent
  | succ k ih =>
    intro x hr
    rcases Bool.and_eq_true_iff.mp hr with ⟨hxnode, hany⟩
    rcases List.any_eq_true.mp hany with ⟨n, hn, hp⟩
    rcases Bool.and_eq_true_iff.mp hp with ⟨hreach, hedge⟩
    have hw := ih n.id hreach
    rcases List.any_eq_true.mp hedge with ⟨e, he, hep⟩
    rcases Bool.and_eq_true_iff.mp hep with ⟨hesrc, htgt⟩
    rcases List.any_eq_true.mp hxnode with ⟨t, ht, htid⟩
    have hnq : ∀ p ∈ (bfsFinal nodes edges).queue, p.1 ≠ n.id := by
      rw [bfsFinal_queue_nil]
      intro p hp
      simp at hp
    have htid' : t.id = x := by simpa using htid
    have htgt' : e.target = x := by simpa using htgt
    have hx := (bfsFinal_inv nodes edges).expanded n.id hw hnq e he
      (by simpa using hesrc) t ht (by rw [htid', htgt'])
    exact htid' ▸ hx

theorem fallbackFold_of_visited {st : BState} (l : List LNode) {x : String}
    (hx : x ∈ st.visited) :
    ∀ p : (String → Option Nat) × (String → Option Int),
      (l.foldl (fallbackStep st) p).1 x = p.1 x ∧
      (l.foldl (fallbackStep st) p).2 x = p.2 x := by
  induction l with
  | nil => intro p; exact ⟨rfl, rfl⟩
  | cons n l ih =>
    intro p
    rw [List.foldl_cons]
    have hstep : (fallbackStep st p n).1 x = p.1 x ∧
        (fallbackStep st p n).2 x = p.2 x := by
      unfold fallbackStep
      by_cases hv : n.id ∈ st.visited
      · simp [hv]
      · have hnx : x ≠ n.id := fun h => hv (h ▸ hx)
        simp [hv, update, hnx]
    have h := ih (fallbackStep st p n)
    exact ⟨h.1.trans hstep.1, h.2.trans hstep.2⟩

theorem fallbackFold_of_unvisited {st : BState} {x : String} (hx : x ∉ st.visited) :
    ∀ (l : List LNode) (p : (String → Option Nat) × (String → Option Int)),
      ((p.1 x = some 5 ∧ p.2 x = some 1) ∨ (∃ n ∈ l, n.id = x)) →
      (l.foldl (fallbackStep st) p).1 x = some 5 ∧
      (l.foldl (fallbackStep st) p).2 x = some 1 := by
  intro l
  induction l with
  | nil =>
    intro p hp
    rcases hp with h | ⟨n, hn, _⟩
    · exact h
    · simp at hn
  | cons n l ih =>
    intro p hp
    rw [List.foldl_cons]
    refine ih (fallbackStep st p n) ?_
    rcases hp with ⟨h1, h2⟩ | ⟨m, hm, hmx⟩
    · left
      unfold fallbackStep
      by_cases hv : n.id ∈ st.visited
      · simp [hv, h1, h2]
      · by_cases hnx : x = n.id
        · subst hnx
          simp [hv, update]
        · simp [hv, update, hnx, h1, h2]
    · rcases List.mem_cons.mp hm with h | h
      · left
        subst h
        have hv : m.id ∉ st.visited := by
          rw [hmx]
          exact hx
        unfold fallbackStep
        simp [hv, update, ← hmx]
      · right
        exact ⟨m, h, hmx⟩

theorem assignLevels_of_visited (nodes : List LNode) (edges : List LEdge) (x : String)
    (hx : x ∈ (bfsFinal nodes edges).visited) :
    (assignLevels nodes edges).1 x = (bfsFinal nodes edges).level x ∧
    (assignLevels nodes edges).2 x = (bfsFinal nodes edges).importance x := by
  unfold assignLevels applyFallback
  exact fallbackFold_of_visited nodes hx _

theorem assignLevels_of_unvisited (nodes : List LNode) (edges : List LEdge) (x : String)
    (hmem : ∃ n ∈ nodes, n.id = x) (hx : x ∉ (bfsFinal nodes edges).visited) :
    (assignLevels nodes edges).1 x = some 5 ∧ (assignLevels nodes edges).2 x = some 1 := by
  unfold assignLevels applyFallback
  exact fallbackFold_of_unvisited hx nodes _ (Or.inr hmem)

/-! ### Properties of the grouping pass -/

theorem splitOnChar_no_sep {c : Char} {l : List Char} (h : ∀ x ∈ l, x ≠ c) :
    splitOnChar c l = [l] := by
  induction l with
  | nil => rfl
  | cons x xs ih =>
    have hx : x ≠ c := h x (by simp)
    have ih' := ih (fun y hy => h y (by simp [hy]))
    unfold splitOnChar
    rw [ih']
    simp [hx]

theorem groupOf_no_sep {file : String} (h : ∀ ch ∈ file.data, ch ≠ '/') :
    groupOf file = "root" := by
  unfold groupOf
  rw [splitOnChar_no_sep h]
  simp

/-- The `group` field of every output node is derived from its `file`
field by `groupOf`. -/
theorem layout_group_eq (nodes : List LNode) (edges : List LEdge) :
    ∀ p ∈ layout nodes edges, p.group = groupOf p.file := by
  intro p hp
  unfold layout at hp
  rcases List.mem_map.mp hp with ⟨d, hd, hpd⟩
  unfold decorate at hd
  rcases List.mem_map.mp hd with ⟨n, _, hdn⟩
  subst hpd
  subst hdn
  rfl

/-! ### Properties of the positioning pass -/

theorem insertByImp_perm (d : DNode) (l : List DNode) :
    (insertByImp d l).Perm (d :: l) := by
  induction l with
  | nil => exact List.Perm.refl _
  | cons x xs ih =>
    unfold insertByImp
    by_cases h : impOf d < impOf x
    · simp only [if_pos h]
      exact (ih.cons x).trans (List.Perm.swap d x xs)
    · simp only [if_neg h]
      exact List.Perm.refl _

theorem sortImp_perm (l : List DNode) : (sortImp l).Perm l := by
  induction l with
  | nil => exact List.Perm.refl _
  | cons x xs ih =>
    unfold sortImp
    exact (insertByImp_perm x (sortImp xs)).trans (ih.cons x)

theorem mem_sortImp {l : List DNode} {d : DNode} : d ∈ sortImp l ↔ d ∈ l :=
  (sortImp_perm l).mem_iff

theorem mem_insertAsc {a x : Nat} {l : List Nat} :
    x ∈ insertAsc a l ↔ x = a ∨ x ∈ l := by
  induction l with
  | nil => simp [insertAsc]
  | cons y ys ih =>
    unfold insertAsc
    by_cases h : a < y
    · simp [h]
    · simp only [if_neg h, List.mem_cons, ih]
      tauto

theorem mem_sortNat {l : List Nat} {x : Nat} : x ∈ sortNat l ↔ x ∈ l := by
  induction l with
  | nil => simp [sortNat]
  | cons y ys ih =>
    unfold sortNat
    rw [mem_insertAsc, ih]
    simp

theorem insertAsc_perm (a : Nat) (l : List Nat) : (insertAsc a l).Perm (a :: l) := by
  induction l with
  | nil => exact List.Perm.refl _
  | cons x xs ih =>
    unfold insertAsc
    by_cases h : a < x
    · simp only [if_pos h]
      exact List.Perm.refl _
    · simp only [if_neg h]
      exact (ih.cons x).trans (List.Perm.swap a x xs)

theorem sortNat_perm (l : List Nat) : (sortNat l).Perm l := by
  induction l with
  | nil => exact List.Perm.refl _
  | cons x xs ih =>
    unfold sortNat
    exact (insertAsc_perm x (sortNat xs)).trans (ih.cons x)

theorem distinctKeys_fold_mem [BEq α] [LawfulBEq α] (l : List α) :
    ∀ (acc : List α) (x : α),
      (x ∈ l.foldl (fun acc y => if acc.contains y then acc else acc ++ [y]) acc ↔
        x ∈ acc ∨ x ∈ l) := by
  induction l with
  | nil => intro acc x; simp
  | cons y ys ih =>
    intro acc x
    rw [List.foldl_cons]
    by_cases h : acc.contains y
    · simp only [if_pos h]
      rw [ih]
      have hy : y ∈ acc := by simpa using h
      constructor
      · rintro (h1 | h1)
        · exact Or.inl h1
        · exact Or.inr (by simp [h1])
      · rintro (h1 | h1)
        · exact Or.inl h1
        · rcases List.mem_cons.mp h1 with h2 | h2
          · exact Or.inl (h2 ▸ hy)
          · exact Or.inr h2
    · simp only [if_neg h]
      rw [ih]
      constructor
      · rintro (h1 | h1)
        · rcases List.mem_append.mp h1 with h2 | h2
          · exact Or.inl h2
          · exact Or.inr (by simp at h2; simp [h2])
        · exact Or.inr (by simp [h1])
      · rintro (h1 | h1)
        · exact Or.inl (List.mem_append_left _ h1)
        · rcases List.mem_cons.mp h1 with h2 | h2
          · exact Or.inl (List.mem_append_right _ (by simp [h2]))
          · exact Or.inr h2

theorem mem_distinctKeys [BEq α] [LawfulBEq α] {l : List α} {x : α} :
    x ∈ distinctKeys l ↔ x ∈ l := by
  unfold distinctKeys
  rw [distinctKeys_fold_mem]
  simp

theorem distinctKeys_fold_nodup [BEq α] [LawfulBEq α] (l : List α) :
    ∀ (acc : List α), acc.Nodup →
      (l.foldl (fun acc y => if acc.contains y then acc else acc ++ [y]) acc).Nodup := by
  induction l with
  | nil => intro acc h; exact h
  | cons y ys ih =>
    intro acc h
    rw [List.foldl_cons]
    by_cases hc : acc.contains y
    · simp only [if_pos hc]
      exact ih acc h
    · simp only [if_neg hc]
      refine ih _ ?_
      have hy : y ∉ acc := by simpa using hc
      simp [List.nodup_append, h, hy]

theorem distinctKeys_nodup [BEq α] [LawfulBEq α] (l : List α) :
    (distinctKeys l).Nodup :=
  distinctKeys_fold_nodup l [] (by simp)

theorem sortedLevels_nodup (dn : List DNode) : (sortedLevels dn).Nodup := by
  unfold sortedLevels
  exact (sortNat_perm _).nodup_iff.mpr (distinctKeys_nodup _)

theorem placeRow_y : ∀ (ds : List DNode) (x0 y0 : Nat) (e : DNode × Nat × Nat),
    e ∈ placeRow ds x0 y0 → e.2.2 = y0 := by
  intro ds
  induction ds with
  | nil => intro x0 y0 e h; simp [placeRow] at h
  | cons d ds ih =>
    intro x0 y0 e h
    rcases List.mem_cons.mp h with h1 | h1
    · rw [h1]
    · exact ih (x0 + 250) y0 e h1

theorem placeRow_fst_mem : ∀ (ds : List DNode) (x0 y0 : Nat) (e : DNode × Nat × Nat),
    e ∈ placeRow ds x0 y0 → e.1 ∈ ds := by
  intro ds
  induction ds with
  | nil => intro x0 y0 e h; simp [placeRow] at h
  | cons d ds ih =>
    intro x0 y0 e h
    rcases List.mem_cons.mp h with h1 | h1
    · rw [h1]; simp
    · exact List.mem_cons_of_mem _ (ih (x0 + 250) y0 e h1)

theorem placeRow_x_lb : ∀ (ds : List DNode) (x0 y0 : Nat) (e : DNode × Nat × Nat),
    e ∈ placeRow ds x0 y0 → x0 ≤ e.2.1 := by
  intro ds
  induction ds with
  | nil => intro x0 y0 e h; simp [placeRow] at h
  | cons d ds ih =>
    intro x0 y0 e h
    rcases List.mem_cons.mp h with h1 | h1
    · rw [h1]
    · have := ih (x0 + 250) y0 e h1
      omega

/-- Two entries of the same row holding different nodes are at least
`nodeSpacing = 250` apart horizontally. -/
theorem placeRow_sep : ∀ (ds : List DNode) (x0 y0 : Nat) (e1 e2 : DNode × Nat × Nat),
    e1 ∈ placeRow ds x0 y0 → e2 ∈ placeRow ds x0 y0 → e1.1 ≠ e2.1 →
    e1.2.1 + 250 ≤ e2.2.1 ∨ e2.2.1 + 250 ≤ e1.2.1 := by
  intro ds
  induction ds with
  | nil => intro x0 y0 e1 e2 h1; simp [placeRow] at h1
  | cons d ds ih =>
    intro x0 y0 e1 e2 h1 h2 hne
    rcases List.mem_cons.mp h1 with ha | ha <;> rcases List.mem_cons.mp h2 with hb | hb
    · rw [ha, hb] at hne
      exact absurd rfl hne
    · have := placeRow_x_lb ds (x0 + 250) y0 e2 hb
      rw [ha]
      left
      simpa using this
    · have := placeRow_x_lb ds (x0 + 250) y0 e1 ha
      rw [hb]
      right
      simpa using this
    · exact ih (x0 + 250) y0 e1 e2 ha hb hne

theorem mem_placeRow_of_mem : ∀ (ds : List DNode) (x0 y0 : Nat) (d : DNode),
    d ∈ ds → ∃ x, (d, x, y0) ∈ placeRow ds x0 y0 := by
  intro ds
  induction ds with
  | nil => intro x0 y0 d h; simp at h
  | cons d0 ds ih =>
    intro x0 y0 d h
    rcases List.mem_cons.mp h with h1 | h1
    · exact ⟨x0, by rw [h1]; simp [placeRow]⟩
    · rcases ih (x0 + 250) y0 d h1 with ⟨x, hx⟩
      exact ⟨x, List.mem_cons_of_mem _ hx⟩

/-- The x-coordinates of a row are `x0, x0 + 250, x0 + 500, ...`:
successive nodes exactly `nodeSpacing` apart. -/
theorem placeRow_xs : ∀ (ds : List DNode) (x0 y0 : Nat),
    (placeRow ds x0 y0).map (fun e => e.2.1) =
      (List.range ds.length).map (fun i => x0 + i * 250) := by
  intro ds
  induction ds with
  | nil => intro x0 y0; simp [placeRow]
  | cons d ds ih =>
    intro x0 y0
    show x0 :: (placeRow ds (x0 + 250) y0).map (fun e => e.2.1) = _
    rw [ih (x0 + 250) y0]
    simp only [List.length_cons, List.range_succ_eq_map, List.map_cons, List.map_map]
    refine congrArg₂ List.cons (by omega) ?_
    refine List.map_congr_left ?_
    intro i _
    show x0 + 250 + i * 250 = x0 + Nat.succ i * 250
    omega

theorem placeGroups_mem_fst : ∀ (bs : List (List DNode)) (x y : Nat)
    (e : DNode × Nat × Nat), e ∈ placeGroups bs x y → ∃ b ∈ bs, e.1 ∈ sortImp b := by
  intro bs
  induction bs with
  | nil => intro x y e h; simp [placeGroups] at h
  | cons b bs ih =>
    intro x y e h
    rcases List.mem_append.mp h with h1 | h1
    · exact ⟨b, by simp, placeRow_fst_mem _ _ _ _ h1⟩
    · rcases ih _ _ e h1 with ⟨b', hb', he⟩
      exact ⟨b', by simp [hb'], he⟩

theorem placeGroups_y : ∀ (bs : List (List DNode)) (x y : Nat)
    (e : DNode × Nat × Nat), e ∈ placeGroups bs x y → e.2.2 = y := by
  intro bs
  induction bs with
  | nil => intro x y e h; simp [placeGroups] at h
  | cons b bs ih =>
    intro x y e h
    rcases List.mem_append.mp h with h1 | h1
    · exact placeRow_y _ _ _ _ h1
    · exact ih _ _ e h1

theorem mem_placeGroups_of_mem : ∀ (bs : List (List DNode)) (x y : Nat) (b : List DNode),
    b ∈ bs → ∀ d ∈ sortImp b, ∃ x', (d, x', y) ∈ placeGroups bs x y := by
  intro bs
  induction bs with
  | nil => intro x y b h; simp at h
  | cons b0 bs ih =>
    intro x y b hb d hd
    rcases List.mem_cons.mp hb with h1 | h1
    · subst h1
      rcases mem_placeRow_of_mem (sortImp b) x y d hd with ⟨x', hx⟩
      exact ⟨x', List.mem_append_left _ hx⟩
    · rcases ih _ y b h1 d hd with ⟨x', hx⟩
      exact ⟨x', List.mem_append_right _ hx⟩

theorem bucketsAt_sub {dn : List DNode} {L : Nat} {b : List DNode} {d : DNode}
    (hb : b ∈ bucketsAt dn L) (hd : d ∈ b) : d ∈ dn ∧ nlevel d = L := by
  unfold bucketsAt at hb
  rcases List.mem_map.mp hb with ⟨g, _, hbg⟩
  subst hbg
  have h := List.mem_filter.mp hd
  have h2 := List.mem_filter.mp h.1
  exact ⟨h2.1, by simpa using h2.2⟩

theorem bucketsAt_canon {dn : List DNode} {L : Nat} {b : List DNode} {d : DNode}
    (hb : b ∈ bucketsAt dn L) (hd : d ∈ b) :
    b = (dn.filter (fun x => nlevel x == L)).filter (fun x => gkey x == gkey d) := by
  unfold bucketsAt at hb
  rcases List.mem_map.mp hb with ⟨g, _, hbg⟩
  subst hbg
  have h := List.mem_filter.mp hd
  have hg : gkey d = g := by simpa using h.2
  rw [hg]

theorem bucketsAt_complete {dn : List DNode} {L : Nat} {d : DNode}
    (hd : d ∈ dn) (hL : nlevel d = L) : ∃ b ∈ bucketsAt dn L, d ∈ b := by
  have hdln : d ∈ dn.filter (fun x => nlevel x == L) :=
    List.mem_filter.mpr ⟨hd, by simp [hL]⟩
  have hkey : gkey d ∈ (dn.filter (fun x => nlevel x == L)).map gkey :=
    List.mem_map.mpr ⟨d, hdln, rfl⟩
  have hdk : gkey d ∈ distinctKeys ((dn.filter (fun x => nlevel x == L)).map gkey) :=
    mem_distinctKeys.mpr hkey
  refine ⟨(dn.filter (fun x => nlevel x == L)).filter (fun x => gkey x == gkey d), ?_, ?_⟩
  · unfold bucketsAt
    exact List.mem_map.mpr ⟨gkey d, hdk, rfl⟩
  · exact List.mem_filter.mpr ⟨hdln, by simp⟩

theorem placeGroups_keys (ln : List DNode) : ∀ (gs : List String) (x y : Nat)
    (e : DNode × Nat × Nat),
    e ∈ placeGroups (gs.map (fun g => ln.filter (fun d => gkey d == g))) x y →
    gkey e.1 ∈ gs := by
  intro gs x y e h
  rcases placeGroups_mem_fst _ _ _ _ h with ⟨b, hb, he⟩
  rcases List.mem_map.mp hb with ⟨g, hg, hbg⟩
  subst hbg
  have h2 := List.mem_filter.mp (mem_sortImp.mp he)
  have : gkey e.1 = g := by simpa using h2.2
  exact this ▸ hg

theorem placeGroups_same_row (ln : List DNode) : ∀ (gs : List String), gs.Nodup →
    ∀ (x y : Nat) (e1 e2 : DNode × Nat × Nat),
      e1 ∈ placeGroups (gs.map (fun g => ln.filter (fun d => gkey d == g))) x y →
      e2 ∈ placeGroups (gs.map (fun g => ln.filter (fun d => gkey d == g))) x y →
      gkey e1.1 = gkey e2.1 →
      ∃ x', e1 ∈ placeRow (sortImp (ln.filter (fun d => gkey d == gkey e1.1))) x' y ∧
        e2 ∈ placeRow (sortImp (ln.filter (fun d => gkey d == gkey e1.1))) x' y := by
  intro gs
  induction gs with
  | nil =>
    intro _ x y e1 e2 h1
    simp [placeGroups] at h1
  | cons g0 gs ih =>
    intro hnd x y e1 e2 h1 h2 hg
    have hnd' := (List.nodup_cons.mp hnd).2
    have hg0 := (List.nodup_cons.mp hnd).1
    rw [List.map_cons] at h1 h2
    rcases List.mem_append.mp h1 with ha | ha <;> rcases List.mem_append.mp h2 with hb | hb
    · -- both in the head row
      have hk1 : gkey e1.1 = g0 := by
        have h3 := List.mem_filter.mp (mem_sortImp.mp (placeRow_fst_mem _ _ _ _ ha))
        simpa using h3.2
      refine ⟨x, ?_, ?_⟩
      · rw [hk1]; exact ha
      · rw [hk1]; exact hb
    · -- e1 head, e2 tail: impossible
      have hk1 : gkey e1.1 = g0 := by
        have h3 := List.mem_filter.mp (mem_sortImp.mp (placeRow_fst_mem _ _ _ _ ha))
        simpa using h3.2
      have hk2 := placeGroups_keys ln gs _ _ e2 hb
      rw [← hg, hk1] at hk2
      exact absurd hk2 hg0
    · have hk2 : gkey e2.1 = g0 := by
        have h3 := List.mem_filter.mp (mem_sortImp.mp (placeRow_fst_mem _ _ _ _ hb))
        simpa using h3.2
      have hk1 := placeGroups_keys ln gs _ _ e1 ha
      rw [hg, hk2] at hk1
      exact absurd hk1 hg0
    · exact ih hnd' _ y e1 e2 ha hb hg

theorem placeLevels_mem_level (dn : List DNode) : ∀ (Ls : List Nat) (y : Nat)
    (e : DNode × Nat × Nat), e ∈ placeLevels dn Ls y → nlevel e.1 ∈ Ls := by
  intro Ls
  induction Ls with
  | nil => intro y e h; simp [placeLevels] at h
  | cons L Ls ih =>
    intro y e h
    rcases List.mem_append.mp h with h1 | h1
    · rcases placeGroups_mem_fst _ _ _ _ h1 with ⟨b, hb, he⟩
      have := (bucketsAt_sub hb (mem_sortImp.mp he)).2
      simp [this]
    · exact List.mem_cons_of_mem _ (ih _ e h1)

theorem placeLevels_fst_mem (dn : List DNode) : ∀ (Ls : List Nat) (y : Nat)
    (e : DNode × Nat × Nat), e ∈ placeLevels dn Ls y → e.1 ∈ dn := by
  intro Ls
  induction Ls with
  | nil => intro y e h; simp [placeLevels] at h
  | cons L Ls ih =>
    intro y e h
    rcases List.mem_append.mp h with h1 | h1
    · rcases placeGroups_mem_fst _ _ _ _ h1 with ⟨b, hb, he⟩
      exact (bucketsAt_sub hb (mem_sortImp.mp he)).1
    · exact ih _ e h1

theorem placeLevels_block_incl (dn : List DNode) : ∀ (Ls : List Nat) (y L : Nat),
    L ∈ Ls → ∃ y', ∀ e, e ∈ placeGroups (bucketsAt dn L) 50 y' →
      e ∈ placeLevels dn Ls y := by
  intro Ls
  induction Ls with
  | nil => intro y L h; simp at h
  | cons L0 Ls ih =>
    intro y L h
    rcases List.mem_cons.mp h with h1 | h1
    · subst h1
      exact ⟨y, fun e he => List.mem_append_left _ he⟩
    · rcases ih (y + 300) L h1 with ⟨y', hy⟩
      exact ⟨y', fun e he => List.mem_append_right _ (hy e he)⟩

theorem placeLevels_same_block (dn : List DNode) : ∀ (Ls : List Nat), Ls.Nodup →
    ∀ (y : Nat) (e1 e2 : DNode × Nat × Nat),
      e1 ∈ placeLevels dn Ls y → e2 ∈ placeLevels dn Ls y →
      nlevel e1.1 = nlevel e2.1 →
      ∃ y', e1 ∈ placeGroups (bucketsAt dn (nlevel e1.1)) 50 y' ∧
        e2 ∈ placeGroups (bucketsAt dn (nlevel e1.1)) 50 y' := by
  intro Ls
  induction Ls with
  | nil => intro _ y e1 e2 h1; simp [placeLevels] at h1
  | cons L0 Ls ih =>
    intro hnd y e1 e2 h1 h2 hlev
    have hnd' := (List.nodup_cons.mp hnd).2
    have hL0 := (List.nodup_cons.mp hnd).1
    rcases List.mem_append.mp h1 with ha | ha <;> rcases List.mem_append.mp h2 with hb | hb
    · have hk1 : nlevel e1.1 = L0 := by
        rcases placeGroups_mem_fst _ _ _ _ ha with ⟨b, hbb, he⟩
        exact (bucketsAt_sub hbb (mem_sortImp.mp he)).2
      refine ⟨y, ?_, ?_⟩
      · rw [hk1]; exact ha
      · rw [hk1]; exact hb
    · have hk1 : nlevel e1.1 = L0 := by
        rcases placeGroups_mem_fst _ _ _ _ ha with ⟨b, hbb, he⟩
        exact (bucketsAt_sub hbb (mem_sortImp.mp he)).2
      have hk2 := placeLevels_mem_level dn Ls _ e2 hb
      rw [← hlev, hk1] at hk2
      exact absurd hk2 hL0
    · have hk2 : nlevel e2.1 = L0 := by
        rcases placeGroups_mem_fst _ _ _ _ hb with ⟨b, hbb, he⟩
        exact (bucketsAt_sub hbb (mem_sortImp.mp he)).2
      have hk1 := placeLevels_mem_level dn Ls _ e1 ha
      rw [hlev, hk2] at hk1
      exact absurd hk1 hL0
    · exact ih hnd' _ e1 e2 ha hb hlev

/-- Every decorated node receives a position entry. -/
theorem positioned_complete (dn : List DNode) (d : DNode) (hd : d ∈ dn) :
    ∃ x y, (d, x, y) ∈ positioned dn := by
  have hLs : nlevel d ∈ sortedLevels dn := by
    unfold sortedLevels
    rw [mem_sortNat, mem_distinctKeys]
    exact List.mem_map.mpr ⟨d, hd, rfl⟩
  rcases bucketsAt_complete hd rfl with ⟨b, hb, hdb⟩
  rcases placeLevels_block_incl dn (sortedLevels dn) 50 (nlevel d) hLs with ⟨y', hy⟩
  rcases mem_placeGroups_of_mem (bucketsAt dn (nlevel d)) 50 y' b hb d
    (mem_sortImp.mpr hdb) with ⟨x', hx⟩
  exact ⟨x', y', hy _ hx⟩

theorem positioned_fst_mem {dn : List DNode} {e : DNode × Nat × Nat}
    (h : e ∈ positioned dn) : e.1 ∈ dn :=
  placeLevels_fst_mem dn _ _ e h

/-- Two positioned entries holding nodes of the same group key and level
key lie in the same row, at the same cursor. -/
theorem positioned_same_row {dn : List DNode} {e1 e2 : DNode × Nat × Nat}
    (h1 : e1 ∈ positioned dn) (h2 : e2 ∈ positioned dn)
    (hlev : nlevel e1.1 = nlevel e2.1) (hg : gkey e1.1 = gkey e2.1) :
    ∃ ds x' y', e1 ∈ placeRow ds x' y' ∧ e2 ∈ placeRow ds x' y' := by
  rcases placeLevels_same_block dn (sortedLevels dn) (sortedLevels_nodup dn) 50 e1 e2
    h1 h2 hlev with ⟨y', hb1, hb2⟩
  have hrow := placeGroups_same_row (dn.filter (fun x => nlevel x == nlevel e1.1))
    (distinctKeys ((dn.filter (fun x => nlevel x == nlevel e1.1)).map gkey))
    (distinctKeys_nodup _) 50 y' e1 e2 hb1 hb2 hg
  rcases hrow with ⟨x', hr1, hr2⟩
  exact ⟨_, x', y', hr1, hr2⟩

theorem bfsGo_of_queue_nil {nodes : List LNode} {edges : List LEdge} {fuel : Nat}
    {st : BState} (h : st.queue = []) : bfsGo nodes edges fuel st = st := by
  cases fuel with
  | zero => rfl
  | succ f =>
    unfold bfsGo
    rw [h]

theorem decorate_ids (nodes : List LNode) (edges : List LEdge) :
    (decorate nodes edges).map (fun d => d.id) = nodes.map (fun n => n.id) := by
  unfold decorate
  rw [List.map_map]
  rfl

/-! ### The claims -/

/-- C2 (counterexample): the claim asserts the fallback level of unreached
nodes is distinct from every reached node's level.  On the six-level chain
`E → n1 → ... → n5` with the extra unreached node `U`, the traversal
reaches `n5` and assigns it level 5 — exactly the fallback level the
unreached `U` receives, so the levels coincide. -/
theorem claim2_fallback_counterexample :
    "n5" ∈ (bfsFinal chainNodes chainEdges).visited ∧
    (assignLevels chainNodes chainEdges).1 "n5" = some 5 ∧
    "U" ∉ (bfsFinal chainNodes chainEdges).visited ∧
    (assignLevels chainNodes chainEdges).1 "U" = some 5 := by
  decide

/-- C2 (amended): every node the breadth-first traversal does not reach is
still assigned a level, namely the fixed fallback level 5; this value is
not guaranteed distinct from reached levels (a node at hop distance 5 also
has level 5). -/
theorem claim2_fallback_amended (nodes : List LNode) (edges : List LEdge) :
    ∀ n ∈ nodes, n.id ∉ (bfsFinal nodes edges).visited →
      (assignLevels nodes edges).1 n.id = some 5 :=
  fun n hn hun => (assignLevels_of_unvisited nodes edges n.id ⟨n, hn, rfl⟩ hun).1

/-- Witness for C2 (amended) on a single unreached node. -/
theorem claim2_fallback_amended_witness :
    ((⟨"C", "a.ts", false⟩ : LNode) ∈ ([⟨"C", "a.ts", false⟩] : List LNode) ∧
      "C" ∉ (bfsFinal [⟨"C", "a.ts", false⟩] []).visited) ∧
    (assignLevels [⟨"C", "a.ts", false⟩] []).1 "C" = some 5 :=
  ⟨⟨by decide, by decide⟩,
    claim2_fallback_amended [⟨"C", "a.ts", false⟩] [] ⟨"C", "a.ts", false⟩
      (by decide) (by decide)⟩

/-- C3: assuming unique node ids, every node `v` reachable along directed
edges from an entry node is assigned the least number of edges of any
directed entry path to `v` (paths run through nodes present in the list,
since the engine only follows edges whose endpoints it finds), and the
traversal never re-levels a node once it is visited (in particular a node
already placed in the queue keeps its level through the rest of the
loop). -/
theorem claim3_bfs_min_dist (nodes : List LNode) (edges : List LEdge)
    (_hnd : (nodes.map (fun n => n.id)).Nodup) (v : String)
    (hreach : ∃ k, pathReachB nodes edges k v = true) :
    (∃ d, (assignLevels nodes edges).1 v = some d ∧
      pathReachB nodes edges d v = true ∧
      ∀ k, pathReachB nodes edges k v = true → d ≤ k) ∧
    (∀ (fuel : Nat) (st : BState) (x : String), x ∈ st.visited →
      (bfsGo nodes edges fuel st).level x = st.level x) := by
  constructor
  · rcases hreach with ⟨k, hk⟩
    have hv := bfsFinal_complete nodes edges k v hk
    rcases (bfsFinal_inv nodes edges).vis_lev v hv with ⟨d, hd, hre, hmin⟩
    exact ⟨d, (assignLevels_of_visited nodes edges v hv).1.trans hd, hre, hmin⟩
  · exact fun fuel st x hx => (bfsGo_maps_of_visited fuel st x hx).1

/-- Witness for C3 on the two-node scenario, at the reachable node `B`. -/
theorem claim3_bfs_min_dist_witness :
    ((scenarioNodes.map (fun n => n.id)).Nodup ∧
      (∃ k, pathReachB scenarioNodes scenarioEdges k "B" = true)) ∧
    ((∃ d, (assignLevels scenarioNodes scenarioEdges).1 "B" = some d ∧
        pathReachB scenarioNodes scenarioEdges d "B" = true ∧
        ∀ k, pathReachB scenarioNodes scenarioEdges k "B" = true → d ≤ k) ∧
      (∀ (fuel : Nat) (st : BState) (x : String), x ∈ st.visited →
        (bfsGo scenarioNodes scenarioEdges fuel st).level x = st.level x)) :=
  ⟨⟨by decide, ⟨1, by decide⟩⟩,
    claim3_bfs_min_dist scenarioNodes scenarioEdges (by decide) "B" ⟨1, by decide⟩⟩

/-- C4: a node the traversal discovers with final level `l + 1` was first
reached from a queue entry carrying level `l` (its parent's level, since
discovery assigns `level = parentLevel + 1`), and its importance is
`max(0, 10 − 2·parentLevel)` — the decay reads the parent's level, not the
node's own. -/
theorem claim4_importance_parent_decay (nodes : List LNode) (edges : List LEdge)
    (v : String) (l : Nat) (hv : v ∈ (bfsFinal nodes edges).visited)
    (hlev : (assignLevels nodes edges).1 v = some (l + 1)) :
    (assignLevels nodes edges).2 v = some (max 0 (10 - 2 * (l : Int))) := by
  have hmaps := assignLevels_of_visited nodes edges v hv
  have hlev' : (bfsFinal nodes edges).level v = some (l + 1) := by
    rw [← hmaps.1]
    exact hlev
  rcases (bfsFinal_inv nodes edges).imp_lev v hv with ⟨h1, _⟩ | ⟨l', h1, h2⟩
  · have hc := h1.symm.trans hlev'
    injection hc with hc
    exact absurd hc (by omega)
  · have hc := h1.symm.trans hlev'
    injection hc with hc
    have hl : l' = l := by omega
    rw [hmaps.2, h2, hl]
    rfl

/-- Witness for C4: in the two-node scenario `B` is discovered from `A`
(parent level 0) and gets importance `max(0, 10 − 0) = 10`. -/
theorem claim4_importance_parent_decay_witness :
    ("B" ∈ (bfsFinal scenarioNodes scenarioEdges).visited ∧
      (assignLevels scenarioNodes scenarioEdges).1 "B" = some (0 + 1)) ∧
    (assignLevels scenarioNodes scenarioEdges).2 "B" =
      some (max 0 (10 - 2 * ((0 : Nat) : Int))) :=
  ⟨⟨by decide, by decide⟩,
    claim4_importance_parent_decay scenarioNodes scenarioEdges "B" 0
      (by decide) (by decide)⟩

/-- C5: every node flagged `is_entry` ends the layout pass with
`level = 0` and `importance = 10`; the traversal never overwrites these,
even when other edges point at the entry node (its minimal entry distance
is 0, and visited nodes are never re-assigned). -/
theorem claim5_entry_dominance (nodes : List LNode) (edges : List LEdge)
    (n : LNode) (hn : n ∈ nodes) (hent : n.is_entry = true) :
    (assignLevels nodes edges).1 n.id = some 0 ∧
    (assignLevels nodes edges).2 n.id = some 10 := by
  have hv := (bfsFinal_inv nodes edges).entry_vis n hn hent
  have hmaps := assignLevels_of_visited nodes edges n.id hv
  rcases (bfsFinal_inv nodes edges).vis_lev n.id hv with ⟨d, hd, _, hmin⟩
  have hd0 : d = 0 :=
    Nat.le_zero.mp (hmin 0 (List.any_eq_true.mpr ⟨n, hn, by simp [hent]⟩))
  subst hd0
  rcases (bfsFinal_inv nodes edges).imp_lev n.id hv with ⟨h1, h2⟩ | ⟨l, h1, h2⟩
  · exact ⟨hmaps.1.trans h1, hmaps.2.trans h2⟩
  · have hc := hd.symm.trans h1
    injection hc with hc
    exact absurd hc (by omega)

/-- Witness for C5 on an entry node that another edge points back at. -/
theorem claim5_entry_dominance_witness :
    ((⟨"A", "src/app.ts", true⟩ : LNode) ∈
        ([⟨"A", "src/app.ts", true⟩, ⟨"B", "src/app.ts", false⟩] : List LNode) ∧
      (⟨"A", "src/app.ts", true⟩ : LNode).is_entry = true) ∧
    ((assignLevels [⟨"A", "src/app.ts", true⟩, ⟨"B", "src/app.ts", false⟩]
        [⟨"B", "A"⟩]).1 "A" = some 0 ∧
      (assignLevels [⟨"A", "src/app.ts", true⟩, ⟨"B", "src/app.ts", false⟩]
        [⟨"B", "A"⟩]).2 "A" = some 10) :=
  ⟨⟨by decide, by decide⟩,
    claim5_entry_dominance [⟨"A", "src/app.ts", true⟩, ⟨"B", "src/app.ts", false⟩]
      [⟨"B", "A"⟩] ⟨"A", "src/app.ts", true⟩ (by decide) (by decide)⟩

/-- C6: every node the traversal does not touch ends with `level = 5` and
`importance = 1`; in particular with no entry node at all, every node ends
with `level = 5` and `importance = 1`. -/
theorem claim6_fallback_completeness (nodes : List LNode) (edges : List LEdge) :
    (∀ n ∈ nodes, n.id ∉ (bfsFinal nodes edges).visited →
      (assignLevels nodes edges).1 n.id = some 5 ∧
      (assignLevels nodes edges).2 n.id = some 1) ∧
    ((∀ n ∈ nodes, n.is_entry = false) → ∀ n ∈ nodes,
      (assignLevels nodes edges).1 n.id = some 5 ∧
      (assignLevels nodes edges).2 n.id = some 1) := by
  have hpart1 : ∀ n ∈ nodes, n.id ∉ (bfsFinal nodes edges).visited →
      (assignLevels nodes edges).1 n.id = some 5 ∧
      (assignLevels nodes edges).2 n.id = some 1 :=
    fun n hn hun => assignLevels_of_unvisited nodes edges n.id ⟨n, hn, rfl⟩ hun
  refine ⟨hpart1, ?_⟩
  intro hno n hn
  have hfilter : nodes.filter (fun n => n.is_entry) = [] := by
    rw [List.filter_eq_nil_iff]
    intro a ha
    simp [hno a ha]
  have hvis : (bfsFinal nodes edges).visited = [] := by
    rw [bfsFinal_eq, hfilter, bfsGo_of_queue_nil rfl]
    rfl
  refine hpart1 n hn ?_
  rw [hvis]
  simp

/-- Witness for C6 on an input without entry points. -/
theorem claim6_fallback_completeness_witness :
    ((⟨"C", "b.ts", false⟩ : LNode) ∈ ([⟨"C", "b.ts", false⟩] : List LNode) ∧
      (∀ n ∈ ([⟨"C", "b.ts", false⟩] : List LNode), n.is_entry = false)) ∧
    ((assignLevels [⟨"C", "b.ts", false⟩] []).1 "C" = some 5 ∧
      (assignLevels [⟨"C", "b.ts", false⟩] []).2 "C" = some 1) :=
  ⟨⟨by decide, by decide⟩,
    (claim6_fallback_completeness [⟨"C", "b.ts", false⟩] []).2 (by decide)
      ⟨"C", "b.ts", false⟩ (by decide)⟩

/-- C7: each node's group is derived from its file path: more than one
segment after splitting on the separator gives the directory (all but the
last segment rejoined), zero or one segment gives `"root"`; concretely
`"src/a/b.ts" ↦ "src/a"`, `"b.ts" ↦ "root"`, `"" ↦ "root"`. -/
theorem claim7_grouping (nodes : List LNode) (edges : List LEdge) :
    (∀ p ∈ layout nodes edges, p.group = groupOf p.file) ∧
    (∀ file : String,
      ((splitOnChar '/' file.data).length > 1 →
        groupOf file = ⟨intercalateChar '/' ((splitOnChar '/' file.data).dropLast)⟩) ∧
      ((splitOnChar '/' file.data).length ≤ 1 → groupOf file = "root")) ∧
    groupOf "src/a/b.ts" = "src/a" ∧ groupOf "b.ts" = "root" ∧
    groupOf "" = "root" := by
  refine ⟨layout_group_eq nodes edges, ?_, by decide, by decide, by decide⟩
  intro file
  constructor
  · intro h
    unfold groupOf
    rw [if_pos h]
  · intro h
    unfold groupOf
    rw [if_neg (by omega)]

/-- Witness for C7 at the multi-segment path `"src/a/b.ts"`. -/
theorem claim7_grouping_witness :
    (splitOnChar '/' ("src/a/b.ts" : String).data).length > 1 ∧
    groupOf "src/a/b.ts" =
      ⟨intercalateChar '/' ((splitOnChar '/' ("src/a/b.ts" : String).data).dropLast)⟩ :=
  ⟨by decide, ((claim7_grouping [] []).2.1 "src/a/b.ts").1 (by decide)⟩

/-- C10: the split uses only the forward slash: a node whose non-empty
file path contains no `'/'` (for example a Windows-style path written
with backslashes) is grouped as `"root"`, never as its containing
directory. -/
theorem claim10_slash_split (nodes : List LNode) (edges : List LEdge) :
    (∀ p ∈ layout nodes edges, p.file ≠ "" →
      (∀ ch ∈ p.file.data, ch ≠ '/') → p.group = "root") ∧
    groupOf "C:\\Projects\\app.ts" = "root" := by
  refine ⟨?_, by decide⟩
  intro p hp _ hch
  rw [layout_group_eq nodes edges p hp]
  exact groupOf_no_sep hch

/-- Witness for C10 on a Windows-style path. -/
theorem claim10_slash_split_witness :
    ((⟨"W", "C:\\Projects\\app.ts", false, some 5, some 1, "root", some (50, 50)⟩ : PNode) ∈
        layout [⟨"W", "C:\\Projects\\app.ts", false⟩] [] ∧
      ("C:\\Projects\\app.ts" : String) ≠ "" ∧
      (∀ ch ∈ ("C:\\Projects\\app.ts" : String).data, ch ≠ '/')) ∧
    (⟨"W", "C:\\Projects\\app.ts", false, some 5, some 1, "root", some (50, 50)⟩ : PNode).group = "root" :=
  ⟨⟨by decide, by decide, by decide⟩,
    (claim10_slash_split [⟨"W", "C:\\Projects\\app.ts", false⟩] []).1
      ⟨"W", "C:\\Projects\\app.ts", false, some 5, some 1, "root", some (50, 50)⟩
      (by decide) (by decide) (by decide)⟩

/-- C8: on inputs satisfying the declared contract of unique node ids (on
which the id-keyed embedding matches the per-object mutation of the
source), the layout pass is total: every output node carries a defined
`level`, `importance`, `group` (a total `String`) and `position`; edges
whose endpoints match no node are silently skipped by the traversal and
never break the pass. -/
theorem claim8_total_decoration (nodes : List LNode) (edges : List LEdge)
    (_hnd : (nodes.map (fun n => n.id)).Nodup) :
    ∀ p ∈ layout nodes edges,
      p.level.isSome ∧ p.importance.isSome ∧ p.position.isSome := by
  intro p hp
  unfold layout at hp
  rcases List.mem_map.mp hp with ⟨d, hd, hpd⟩
  subst hpd
  have hd2 := hd
  unfold decorate at hd2
  rcases List.mem_map.mp hd2 with ⟨n, hn, hdn⟩
  refine ⟨?_, ?_, ?_⟩
  · show d.level.isSome
    subst hdn
    show ((assignLevels nodes edges).1 n.id).isSome
    by_cases hv : n.id ∈ (bfsFinal nodes edges).visited
    · rcases (bfsFinal_inv nodes edges).vis_lev n.id hv with ⟨dd, hdd, _⟩
      rw [(assignLevels_of_visited nodes edges n.id hv).1, hdd]
      rfl
    · rw [(assignLevels_of_unvisited nodes edges n.id ⟨n, hn, rfl⟩ hv).1]
      rfl
  · show d.importance.isSome
    subst hdn
    show ((assignLevels nodes edges).2 n.id).isSome
    by_cases hv : n.id ∈ (bfsFinal nodes edges).visited
    · rcases (bfsFinal_inv nodes edges).imp_lev n.id hv with ⟨_, h2⟩ | ⟨l, _, h2⟩ <;>
        rw [(assignLevels_of_visited nodes edges n.id hv).2, h2] <;> rfl
    · rw [(assignLevels_of_unvisited nodes edges n.id ⟨n, hn, rfl⟩ hv).2]
      rfl
  · show (((positioned (decorate nodes edges)).find?
      (fun e => e.1.id == d.id)).map (fun e => e.2)).isSome
    rcases positioned_complete (decorate nodes edges) d hd with ⟨x, y, hxy⟩
    have hfs : ((positioned (decorate nodes edges)).find?
        (fun e => e.1.id == d.id)).isSome :=
      List.find?_isSome.mpr ⟨(d, x, y), hxy, by simp⟩
    rcases Option.isSome_iff_exists.mp hfs with ⟨e, he⟩
    rw [he]
    rfl

/-- Witness for C8, with a dangling edge `A → ghost` in the input. -/
theorem claim8_total_decoration_witness :
    ((([⟨"A", "src/app.ts", true⟩, ⟨"B", "src/app.ts", false⟩] :
        List LNode).map (fun n => n.id)).Nodup ∧
      (⟨"A", "src/app.ts", true, some 0, some 10, "src", some (50, 50)⟩ : PNode) ∈
        layout [⟨"A", "src/app.ts", true⟩, ⟨"B", "src/app.ts", false⟩]
          [⟨"A", "B"⟩, ⟨"A", "ghost"⟩]) ∧
    ((⟨"A", "src/app.ts", true, some 0, some 10, "src", some (50, 50)⟩ : PNode).level.isSome ∧
      (⟨"A", "src/app.ts", true, some 0, some 10, "src", some (50, 50)⟩ : PNode).importance.isSome ∧
      (⟨"A", "src/app.ts", true, some 0, some 10, "src", some (50, 50)⟩ : PNode).position.isSome) :=
  ⟨⟨by decide, by decide⟩,
    claim8_total_decoration [⟨"A", "src/app.ts", true⟩, ⟨"B", "src/app.ts", false⟩]
      [⟨"A", "B"⟩, ⟨"A", "ghost"⟩] (by decide)
      ⟨"A", "src/app.ts", true, some 0, some 10, "src", some (50, 50)⟩
      (by decide)⟩

/-- C9: under the unique-id input contract, two output nodes of the same
group and level have x-coordinates at least `nodeSpacing = 250` apart; a
sorted group's row has x-coordinates `x0, x0 + 250, x0 + 500, ...`
(successive nodes exactly 250 apart); and after a group of `n` nodes the
cursor advances by `max(n · 250, 400)` before the next group starts. -/
theorem claim9_spacing (nodes : List LNode) (edges : List LEdge)
    (hnd : (nodes.map (fun n => n.id)).Nodup) :
    (∀ p1 ∈ layout nodes edges, ∀ p2 ∈ layout nodes edges,
      p1.id ≠ p2.id → p1.group = p2.group → p1.level = p2.level →
      ∃ x1 y1 x2 y2, p1.position = some (x1, y1) ∧ p2.position = some (x2, y2) ∧
        (x1 + 250 ≤ x2 ∨ x2 + 250 ≤ x1)) ∧
    (∀ (ds : List DNode) (x0 y0 : Nat),
      (placeRow ds x0 y0).map (fun e => e.2.1) =
        (List.range ds.length).map (fun i => x0 + i * 250)) ∧
    (∀ (b : List DNode) (bs : List (List DNode)) (x y : Nat),
      placeGroups (b :: bs) x y =
        placeRow (sortImp b) x y ++
          placeGroups bs (x + max ((sortImp b).length * 250) 400) y) := by
  refine ⟨?_, placeRow_xs, fun b bs x y => rfl⟩
  intro p1 hp1 p2 hp2 hne hgr hlv
  unfold layout at hp1 hp2
  rcases List.mem_map.mp hp1 with ⟨d1, hd1, hpd1⟩
  rcases List.mem_map.mp hp2 with ⟨d2, hd2, hpd2⟩
  subst hpd1
  subst hpd2
  have hgr' : d1.group = d2.group := hgr
  have hlv' : d1.level = d2.level := hlv
  have hne' : d1.id ≠ d2.id := hne
  have hdnids : ((decorate nodes edges).map (fun d => d.id)).Nodup := by
    rw [decorate_ids]
    exact hnd
  rcases positioned_complete (decorate nodes edges) d1 hd1 with ⟨xa, ya, hmem1⟩
  have hfs1 : ((positioned (decorate nodes edges)).find?
      (fun e => e.1.id == d1.id)).isSome :=
    List.find?_isSome.mpr ⟨(d1, xa, ya), hmem1, by simp⟩
  rcases Option.isSome_iff_exists.mp hfs1 with ⟨e1, he1⟩
  have he1mem := List.mem_of_find?_eq_some he1
  have he1id : e1.1.id = d1.id := by
    have h := List.find?_some he1
    simpa using h
  have he1fst : e1.1 = d1 :=
    List.inj_on_of_nodup_map hdnids (positioned_fst_mem he1mem) hd1 he1id
  rcases positioned_complete (decorate nodes edges) d2 hd2 with ⟨xb, yb, hmem2⟩
  have hfs2 : ((positioned (decorate nodes edges)).find?
      (fun e => e.1.id == d2.id)).isSome :=
    List.find?_isSome.mpr ⟨(d2, xb, yb), hmem2, by simp⟩
  rcases Option.isSome_iff_exists.mp hfs2 with ⟨e2, he2⟩
  have he2mem := List.mem_of_find?_eq_some he2
  have he2id : e2.1.id = d2.id := by
    have h := List.find?_some he2
    simpa using h
  have he2fst : e2.1 = d2 :=
    List.inj_on_of_nodup_map hdnids (positioned_fst_mem he2mem) hd2 he2id
  have hlevk : nlevel e1.1 = nlevel e2.1 := by
    rw [he1fst, he2fst]
    unfold nlevel
    rw [hlv']
  have hgk : gkey e1.1 = gkey e2.1 := by
    rw [he1fst, he2fst]
    unfold gkey
    rw [hgr']
  rcases positioned_same_row he1mem he2mem hlevk hgk with ⟨ds, x', y', hr1, hr2⟩
  have hsep := placeRow_sep ds x' y' e1 e2 hr1 hr2 (by
    rw [he1fst, he2fst]
    intro h
    exact hne' (congrArg (fun z => z.id) h))
  refine ⟨e1.2.1, e1.2.2, e2.2.1, e2.2.2, ?_, ?_, hsep⟩
  · show ((positioned (decorate nodes edges)).find?
      (fun e => e.1.id == d1.id)).map (fun e => e.2) = some (e1.2.1, e1.2.2)
    rw [he1]
    rfl
  · show ((positioned (decorate nodes edges)).find?
      (fun e => e.1.id == d2.id)).map (fun e => e.2) = some (e2.2.1, e2.2.2)
    rw [he2]
    rfl

/-- Witness for C9: two entry nodes in the same directory and level sit
250 apart. -/
theorem claim9_spacing_witness :
    ((([⟨"X", "src/a.ts", true⟩, ⟨"Y", "src/b.ts", true⟩] :
        List LNode).map (fun n => n.id)).Nodup ∧
      (⟨"X", "src/a.ts", true, some 0, some 10, "src", some (50, 50)⟩ : PNode) ∈
        layout [⟨"X", "src/a.ts", true⟩, ⟨"Y", "src/b.ts", true⟩] [] ∧
      (⟨"Y", "src/b.ts", true, some 0, some 10, "src", some (300, 50)⟩ : PNode) ∈
        layout [⟨"X", "src/a.ts", true⟩, ⟨"Y", "src/b.ts", true⟩] []) ∧
    (∃ x1 y1 x2 y2,
      (⟨"X", "src/a.ts", true, some 0, some 10, "src", some (50, 50)⟩ : PNode).position =
        some (x1, y1) ∧
      (⟨"Y", "src/b.ts", true, some 0, some 10, "src", some (300, 50)⟩ : PNode).position =
        some (x2, y2) ∧
      (x1 + 250 ≤ x2 ∨ x2 + 250 ≤ x1)) :=
  ⟨⟨by decide, by decide, by decide⟩,
    (claim9_spacing [⟨"X", "src/a.ts", true⟩, ⟨"Y", "src/b.ts", true⟩] []
        (by decide)).1
      ⟨"X", "src/a.ts", true, some 0, some 10, "src", some (50, 50)⟩ (by decide)
      ⟨"Y", "src/b.ts", true, some 0, some 10, "src", some (300, 50)⟩ (by decide)
      (by decide) (by decide) (by decide)⟩

/-- C1 (counterexample): in the scenario with entry `A` and `B` in
`src/app.ts` and the single edge `A → B`, the claim's value
`B.importance = 8` is wrong: the code computes the importance of a
discovered node from the parent's level (`max(0, 10 − 2·0) = 10`), so `B`
ends with importance 10, not 8. -/
theorem claim1_scenario_counterexample :
    ¬ (∀ p ∈ layout scenarioNodes scenarioEdges,
        p.id = "B" → p.importance = some 8) := by
  decide

/-- C1 (amended): the scenario output, exactly as computed: `A` has
level 0, importance 10, group `"src"`, position (50, 50); `B` has level 1,
importance 10 (not 8 — parent-level decay), group `"src"`, position
(50, 350). -/
theorem claim1_scenario_amended :
    layout scenarioNodes scenarioEdges =
      [⟨"A", "src/app.ts", true, some 0, some 10, "src", some (50, 50)⟩,
       ⟨"B", "src/app.ts", false, some 1, some 10, "src", some (50, 350)⟩] := by
  decide

end DevScope
